import Mathlib

/-!
Verification development for the UCX registration-cache subsystem and the
ucm memory-attribute helper.

Part 1 embeds src/src/ucm/mem_attr/mem_attr.c (together with the
declarations in mem_attr.h / mem_attr_int.h) as executable Lean
definitions.

Part 2 models the registration cache (page table, region records,
invalidation, the get/put engine).  The rcache implementation itself
(ucs/memory/rcache.c) is not part of the source tree given here - only its
test suite (src/test/gtest/ucs/test_rcache.cc) is - so the cache is
modelled from the specification (spec.md sections 3, 4.1-4.5, 7), with the
in-tree tests pinning the behaviour wherever they speak.
-/

/-- Status codes, from ucs/type/status.h as used by the sources at hand. -/
inductive ucs_status_t where
  | UCS_OK
  | UCS_ERR_NO_RESOURCE
  | UCS_ERR_INVALID_ADDR
  | UCS_ERR_IO_ERROR
  | UCS_ERR_INVALID_PARAM
  | UCS_ERR_UNSUPPORTED
deriving DecidableEq

/-- Memory types, from ucs/memory/memory_type.h (the variants the tests use). -/
inductive ucs_memory_type_t where
  | UCS_MEMORY_TYPE_HOST
  | UCS_MEMORY_TYPE_CUDA
  | UCS_MEMORY_TYPE_CUDA_MANAGED
  | UCS_MEMORY_TYPE_ROCM
deriving DecidableEq

/-- The per-descriptor cmp function pointer of ucm_mem_attr_t.  The only
cmp function defined in mem_attr.c is ucm_mem_attr_cmp_type (used by the
host singleton); event installers may install their own, identified here
by an index. -/
inductive CmpCallback where
  | cmpType
  | installerCmp (id : Nat)
deriving DecidableEq

/-- The per-descriptor destroy function pointer of ucm_mem_attr_t.  The
only destroy function defined in mem_attr.c is ucm_mem_attr_destroy_host
(an empty body); event installers may install their own. -/
inductive DestroyCallback where
  | destroyHost
  | installerDestroy (id : Nat)
deriving DecidableEq

/-- struct ucm_mem_attr (mem_attr_int.h): a memory type plus the two
function pointers. -/
structure ucm_mem_attr_t where
  mem_type : ucs_memory_type_t
  cmp : CmpCallback
  destroy : DestroyCallback
deriving DecidableEq

/-- ucm_mem_attr_cmp_type (mem_attr.c:17-22): 0 iff the memory types are
equal, 1 otherwise. -/
def ucm_mem_attr_cmp_type (mem_attr1 mem_attr2 : ucm_mem_attr_t) : Int :=
  if mem_attr1.mem_type = mem_attr2.mem_type then 0 else 1

/-- Semantics of installer-provided cmp function pointers: an environment
mapping the installer cmp index to its comparison function. -/
def CmpEnv : Type := Nat → ucm_mem_attr_t → ucm_mem_attr_t → Int

/-- Dispatch of a cmp function pointer. -/
def runCmpCallback (env : CmpEnv) :
    CmpCallback → ucm_mem_attr_t → ucm_mem_attr_t → Int
  | .cmpType, a1, a2 => ucm_mem_attr_cmp_type a1 a2
  | .installerCmp i, a1, a2 => env i a1 a2

/-- The static host singleton mem_attr_host (mem_attr.c:31-35). -/
def mem_attr_host : ucm_mem_attr_t :=
  { mem_type := .UCS_MEMORY_TYPE_HOST
    cmp := .cmpType
    destroy := .destroyHost }

/-- ucm_mem_attr_cmp (mem_attr.c:63-67): if the types differ return 1,
otherwise defer to the first descriptor's per-instance cmp. -/
def ucm_mem_attr_cmp (env : CmpEnv) (mem_attr1 mem_attr2 : ucm_mem_attr_t) : Int :=
  if ucm_mem_attr_cmp_type mem_attr1 mem_attr2 ≠ 0 then 1
  else runCmpCallback env mem_attr1.cmp mem_attr1 mem_attr2

/-- ucm_mem_attr_get_type (mem_attr.c:58-61). -/
def ucm_mem_attr_get_type (mem_attr : ucm_mem_attr_t) : ucs_memory_type_t :=
  mem_attr.mem_type

/-- ucm_mem_attr_destroy (mem_attr.c:69-72).  The observable effect of a
destroy call is the list of installer destroy callbacks invoked: a NULL
descriptor invokes nothing, a descriptor carrying
ucm_mem_attr_destroy_host invokes nothing (empty body, mem_attr.c:24-27),
and an installer-owned descriptor invokes its own destroy. -/
def ucm_mem_attr_destroy : Option ucm_mem_attr_t → List Nat
  | none => []
  | some a =>
    match a.destroy with
    | .destroyHost => []
    | .installerDestroy i => [i]

/-- Destroying the same descriptor n times: concatenated effects. -/
def destroyNTimes (a : ucm_mem_attr_t) : Nat → List Nat
  | 0 => []
  | n + 1 => ucm_mem_attr_destroy (some a) ++ destroyNTimes a n

/-- One entry of ucm_event_installer_list as seen by ucm_mem_attr_get: the
installer's get_mem_attr pointer is either NULL or, for the concrete query
at hand, returns a status together with the attribute it would store. -/
structure ucm_event_installer_t where
  get_mem_attr : Option (ucs_status_t × ucm_mem_attr_t)
deriving DecidableEq

/-- The installer loop of ucm_mem_attr_get (mem_attr.c:44-49), with the
accumulated failure flag threaded through. -/
def ucm_mem_attr_get_loop :
    List ucm_event_installer_t → Bool → ucs_status_t × Option ucm_mem_attr_t
  | [], failure =>
    if failure then (.UCS_ERR_NO_RESOURCE, none)
    else (.UCS_OK, some mem_attr_host)
  | inst :: rest, failure =>
    match inst.get_mem_attr with
    | none => ucm_mem_attr_get_loop rest failure
    | some (st, attr) =>
      if st = .UCS_OK then (.UCS_OK, some attr)
      else if st ≠ .UCS_ERR_INVALID_ADDR then ucm_mem_attr_get_loop rest true
      else ucm_mem_attr_get_loop rest failure

/-- ucm_mem_attr_get (mem_attr.c:37-56): scan the installer list; the first
OK wins; a non-OK, non-INVALID_ADDR status records a failure which turns
into NO_RESOURCE at the end; if nobody recognized the address, the host
singleton is returned with UCS_OK. -/
def ucm_mem_attr_get (installers : List ucm_event_installer_t) :
    ucs_status_t × Option ucm_mem_attr_t :=
  ucm_mem_attr_get_loop installers false

/-- An installer that does not recognize the queried range: either it has
no get_mem_attr at all, or it reports UCS_ERR_INVALID_ADDR. -/
def installerNotFound (inst : ucm_event_installer_t) : Prop :=
  inst.get_mem_attr = none ∨
    ∃ a, inst.get_mem_attr = some (.UCS_ERR_INVALID_ADDR, a)

instance (inst : ucm_event_installer_t) : Decidable (installerNotFound inst) := by
  unfold installerNotFound
  cases h : inst.get_mem_attr with
  | none => exact isTrue (Or.inl rfl)
  | some p =>
    cases p with
    | mk st a =>
      by_cases hst : st = .UCS_ERR_INVALID_ADDR
      · subst hst
        exact isTrue (Or.inr ⟨a, rfl⟩)
      · refine isFalse ?_
        rintro (hc | ⟨b, hb⟩)
        · simp_all
        · injection hb with hb
          injection hb with hb1 hb2
          exact hst hb1


/-! ## Part 2: the registration cache, modelled from the spec.

The rcache implementation (ucs/memory/rcache.c) is not under src/ in this
tree; only its test suite is.  The definitions below are modelled from the
spec: data model of spec.md section 3, page-table contract of section 4.1,
event handling of section 4.4 and the get/put engine of section 4.5, as a
sequential state machine.  Where the spec leaves the order of invalidation
versus failure underdetermined, the in-tree tests
(test_rcache.cc: merge_invalid_prot, merge_invalid_prot_slow,
merge_with_unwritable) pin the behaviour: regions overlapping a slow-path
request are invalidated before the register callback runs, and a region
invalidated while its refcount is zero is deregistered and freed at once.
-/

/-- Protection bitset: read / write / execute access modes (spec section 3,
PROT_READ / PROT_WRITE / PROT_EXEC in the tests). -/
structure Prot where
  r : Bool
  w : Bool
  x : Bool
deriving DecidableEq, Fintype

/-- Bitwise union of two protection bitsets. -/
def Prot.union (a b : Prot) : Prot :=
  ⟨a.r || b.r, a.w || b.w, a.x || b.x⟩

/-- Prot.contains a b: bitset a has every bit of b (a dominates b). -/
def Prot.contains (a b : Prot) : Bool :=
  (!b.r || a.r) && (!b.w || a.w) && (!b.x || a.x)

/-- Modelled from the spec: memory-kind descriptor (spec section 3 and
4.5 step 1).  Host ranges receive the singleton host descriptor; a device
range receives a descriptor distinct from every other live allocation of
the same kind, modelled by a per-allocation identifier. -/
inductive MemKind where
  | host
  | device (family : Nat) (allocId : Nat)
deriving DecidableEq

/-- Modelled from the spec: region record (spec section 3).  rid is the
region's identity (the tests tag regions with a fresh id at registration
time); the interval is half-open [start, rend). -/
structure Region where
  rid : Nat
  start : Nat
  rend : Nat
  prot : Prot
  mem_kind : MemKind
  refcount : Nat
  in_pgtable : Bool
  invalid : Bool
deriving DecidableEq

/-- Two regions have disjoint intervals. -/
def Region.disjointWith (r1 r2 : Region) : Prop :=
  r1.rend ≤ r2.start ∨ r2.rend ≤ r1.start

instance (r1 r2 : Region) : Decidable (r1.disjointWith r2) := by
  unfold Region.disjointWith; infer_instance

/-- The region's interval intersects [s, e). -/
def Region.overlapsI (r : Region) (s e : Nat) : Bool :=
  decide (r.start < e) && decide (s < r.rend)

/-- The region's interval fully covers [s, e). -/
def Region.coversI (r : Region) (s e : Nat) : Bool :=
  decide (r.start ≤ s) && decide (e ≤ r.rend)

/-- Modelled from the spec: cache state (spec sections 3 and 4.6).  The
regions list is the arena of live region records; the page table is its
IN_PGTABLE sublist; nextId generates fresh region identities; alignment is
the cache's outward alignment. -/
structure RState where
  alignment : Nat
  regions : List Region
  nextId : Nat
deriving DecidableEq

/-- The page table: regions visible to lookups (spec section 4.1). -/
def pgtable (σ : RState) : List Region :=
  σ.regions.filter (fun r => r.in_pgtable)

/-- Align an address down to a multiple of al. -/
def alignDown (a al : Nat) : Nat := a / al * al

/-- Align an address up to a multiple of al. -/
def alignUp (a al : Nat) : Nat := (a + al - 1) / al * al

/-- OS-protection check (spec section 4.5 step 4): the OS-reported
protection of every page in [s, e) must dominate p.  os gives the
OS-reported protection per address unit. -/
def osCheck (os : Nat → Prot) (s e : Nat) (p : Prot) : Bool :=
  (List.range (e - s)).all (fun i => (os (s + i)).contains p)

/-- Regions of the page table whose interval intersects the normalized
request [s, e) (spec section 4.5 step 2). -/
def overlapList (σ : RState) (s e : Nat) : List Region :=
  (pgtable σ).filter (fun r => r.overlapsI s e)

/-- The overlapping regions of the same memory kind as the request; only
these may be merged (spec section 4.5, merge across differing mem_kind is
forbidden). -/
def sameKindList (σ : RState) (s e : Nat) (kind : MemKind) : List Region :=
  (overlapList σ s e).filter (fun r => r.mem_kind == kind)

/-- Candidate merged prot: bitwise union of the request's prot with the
prot of every overlapping same-kind region (spec section 4.5 step 4). -/
def candProt (σ : RState) (s e : Nat) (p : Prot) (kind : MemKind) : Prot :=
  (sameKindList σ s e kind).foldl (fun a r => a.union r.prot) p

/-- Start of the merged interval: union of the request with every
overlapping same-kind region (spec section 4.5 step 4). -/
def hullStart (σ : RState) (s e : Nat) (kind : MemKind) : Nat :=
  (sameKindList σ s e kind).foldl (fun a r => min a r.start) s

/-- End of the merged interval. -/
def hullEnd (σ : RState) (s e : Nat) (kind : MemKind) : Nat :=
  (sameKindList σ s e kind).foldl (fun a r => max a r.rend) e

/-- Overlapping same-kind regions whose prot is dominated by the request's
prot: the only ones that may still be absorbed when the merge shrinks back
to the request's prot (spec section 4.5 step 4, second bullet). -/
def domList (σ : RState) (s e : Nat) (p : Prot) (kind : MemKind) : List Region :=
  (sameKindList σ s e kind).filter (fun r => p.contains r.prot)

/-- Start of the shrunk merged interval. -/
def domStart (σ : RState) (s e : Nat) (p : Prot) (kind : MemKind) : Nat :=
  (domList σ s e p kind).foldl (fun a r => min a r.start) s

/-- End of the shrunk merged interval. -/
def domEnd (σ : RState) (s e : Nat) (p : Prot) (kind : MemKind) : Nat :=
  (domList σ s e p kind).foldl (fun a r => max a r.rend) e

/-- Modelled from the spec: the reconcile/merge rule (spec section 4.5
steps 3-4).  Returns the new region's interval and prot, or none for the
permission failure (the request's own prot is not supported by its pages;
rolled into io-error per spec section 6).  The full merged candidate is
accepted only if the OS protection of every page of the merged interval
dominates it; otherwise the prot shrinks back to the request's prot alone,
absorbing only dominated regions, and if even their union fails the OS
check the interval shrinks to the request itself. -/
def reconcile (σ : RState) (s e : Nat) (p : Prot) (kind : MemKind)
    (os : Nat → Prot) : Option (Nat × Nat × Prot) :=
  if osCheck os (hullStart σ s e kind) (hullEnd σ s e kind) (candProt σ s e p kind) then
    some (hullStart σ s e kind, hullEnd σ s e kind, candProt σ s e p kind)
  else if !osCheck os s e p then
    none
  else if osCheck os (domStart σ s e p kind) (domEnd σ s e p kind) p then
    some (domStart σ s e p kind, domEnd σ s e p kind, p)
  else
    some (s, e, p)

/-- Modelled from the spec: invalidation of one region (spec sections 3
and 4.5 step 5, section 4.3 drain semantics).  A region invalidated while
its refcount is zero is deregistered and freed at once (the in-tree tests
merge_invalid_prot and merge_invalid_prot_slow observe the deregistration
before the surrounding get returns); a referenced region is marked INVALID,
leaves the page table and stays alive until its last put. -/
def invOne (s e : Nat) (r : Region) : Option Region :=
  if r.in_pgtable && r.overlapsI s e then
    if r.refcount = 0 then none
    else some { r with in_pgtable := false, invalid := true }
  else some r

/-- Invalidate every page-table region intersecting [s, e). -/
def invalidateRange (σ : RState) (s e : Nat) : RState :=
  { σ with regions := σ.regions.filterMap (invOne s e) }

/-- The region identities an invalidation event over [s, e) invalidates. -/
def eventInvalidated (σ : RState) (s e : Nat) : List Nat :=
  (overlapList σ s e).map (fun r => r.rid)

/-- Modelled from the spec: VM-event handling (spec section 4.4) and the
programmatic ucs_rcache_invalidate_range (spec section 6): every
overlapping region is invalidated. -/
def ucs_rcache_invalidate_range (σ : RState) (addr length : Nat) : RState :=
  invalidateRange σ addr (addr + length)

/-- Per-record refcount increment for the region with identity rid. -/
def bumpf (rid : Nat) (r : Region) : Option Region :=
  if r.rid = rid then some { r with refcount := r.refcount + 1 } else some r

/-- Increment the refcount of the region with identity rid. -/
def bumpRef (σ : RState) (rid : Nat) : RState :=
  { σ with regions := σ.regions.filterMap (bumpf rid) }

/-- Result of a get: a region (with the returned flag true for a hit,
false for a miss that created a region) or a status error. -/
inductive GetResult where
  | ok (r : Region) (hit : Bool)
  | err (st : ucs_status_t)
deriving DecidableEq

/-- Modelled from the spec: fast-path lookup of ucs_rcache_get (spec
section 4.5): a page-table region fully covering the normalized request
whose prot contains the request's and whose mem_kind equals the
classification of the request. -/
def fastLookup (σ : RState) (s e : Nat) (p : Prot) (kind : MemKind) :
    Option Region :=
  (pgtable σ).find? (fun r =>
    r.coversI s e && r.prot.contains p && (r.mem_kind == kind))

/-- Modelled from the spec: the slow path of get (spec section 4.5 steps
2-7) on the already-normalized interval [s, e): reconcile, invalidate
every overlapping region, then register the new region; on register
failure the new region is removed and freed and the call fails with
io-error. -/
def slowPath (σ : RState) (s e : Nat) (p : Prot) (kind : MemKind)
    (os : Nat → Prot) (regOk : Bool) : GetResult × RState :=
  match reconcile σ s e p kind os with
  | none => (.err .UCS_ERR_IO_ERROR, invalidateRange σ s e)
  | some (ns, ne, np) =>
    if regOk then
      (.ok ⟨σ.nextId, ns, ne, np, kind, 1, true, false⟩ false,
       { alignment := σ.alignment
         regions := (⟨σ.nextId, ns, ne, np, kind, 1, true, false⟩ : Region) ::
                    (invalidateRange σ s e).regions
         nextId := σ.nextId + 1 })
    else (.err .UCS_ERR_IO_ERROR, invalidateRange σ s e)

/-- Modelled from the spec: the get engine, ucs_rcache_get (spec section
4.5), sequentially.  The classification result for the queried range is
the kind argument; os is the OS-reported per-address protection; regOk
tells whether the user register callback succeeds on this call.  A
zero-length request fails with invalid-argument; then the request is
normalized outward to the cache alignment; a fast hit increments the
region's refcount and returns it; otherwise the slow path runs. -/
def ucs_rcache_get (σ : RState) (addr length : Nat) (p : Prot)
    (kind : MemKind) (os : Nat → Prot) (regOk : Bool) : GetResult × RState :=
  if length = 0 then (.err .UCS_ERR_INVALID_PARAM, σ)
  else
    match fastLookup σ (alignDown addr σ.alignment)
        (alignUp (addr + length) σ.alignment) p kind with
    | some r => (.ok { r with refcount := r.refcount + 1 } true, bumpRef σ r.rid)
    | none =>
      slowPath σ (alignDown addr σ.alignment)
        (alignUp (addr + length) σ.alignment) p kind os regOk

/-- Per-record refcount decrement of put: an INVALID region whose
refcount reaches zero is deregistered and freed. -/
def putf (rid : Nat) (r : Region) : Option Region :=
  if r.rid = rid then
    if r.invalid ∧ r.refcount ≤ 1 then none
    else some { r with refcount := r.refcount - 1 }
  else some r

/-- Modelled from the spec: put (spec section 4.5): decrement the
refcount; an INVALID region whose refcount reaches zero is deregistered
and freed. -/
def ucs_rcache_region_put (σ : RState) (rid : Nat) : RState :=
  { σ with regions := σ.regions.filterMap (putf rid) }

/-- The refcount currently recorded for identity rid (0 if freed). -/
def refcountOf (σ : RState) (rid : Nat) : Nat :=
  match σ.regions.find? (fun r => r.rid == rid) with
  | some r => r.refcount
  | none => 0

/-- An operation against the cache. -/
inductive ROp where
  | get (addr length : Nat) (p : Prot) (kind : MemKind)
        (os : Nat → Prot) (regOk : Bool)
  | put (rid : Nat)
  | event (addr length : Nat)

/-- Execute one operation (dropping get's return value). -/
def execOp (σ : RState) : ROp → RState
  | .get a l p k os rok => (ucs_rcache_get σ a l p k os rok).2
  | .put rid => ucs_rcache_region_put σ rid
  | .event a l => ucs_rcache_invalidate_range σ a l

/-- Execute a sequence of operations. -/
def execOps (σ : RState) (ops : List ROp) : RState :=
  ops.foldl execOp σ

/-- Well-formedness invariant of a cache state (spec section 3,
invariants 1-6 as far as they hold of the model): positive alignment;
page-table intervals pairwise disjoint; a record is INVALID exactly when it
is off the page table; nonempty intervals; identities below the fresh-id
counter and pairwise distinct; INVALID regions are still referenced. -/
def WF (σ : RState) : Prop :=
  1 ≤ σ.alignment ∧
  List.Pairwise Region.disjointWith (pgtable σ) ∧
  (∀ r ∈ σ.regions, r.invalid = !r.in_pgtable) ∧
  (∀ r ∈ σ.regions, r.start < r.rend) ∧
  (∀ r ∈ σ.regions, r.rid < σ.nextId) ∧
  (σ.regions.map Region.rid).Nodup ∧
  (∀ r ∈ σ.regions, r.invalid = true → 1 ≤ r.refcount)

instance (σ : RState) : Decidable (WF σ) := by
  unfold WF; infer_instance

/-- Identity rid can no longer be returned by any lookup: every record
carrying it is off the page table. -/
def deadRid (σ : RState) (rid : Nat) : Prop :=
  ∀ r ∈ σ.regions, r.rid = rid → r.in_pgtable = false

instance (σ : RState) (rid : Nat) : Decidable (deadRid σ rid) := by
  unfold deadRid; infer_instance

/-! Concrete example states and inputs used by the closed instance
theorems below. -/

/-- A read-write protection bitset (PROT_READ|PROT_WRITE). -/
def exProtRW : Prot := ⟨true, true, false⟩

/-- A read-only protection bitset (PROT_READ). -/
def exProtR : Prot := ⟨true, false, false⟩

/-- A write-only protection bitset (PROT_WRITE). -/
def exProtW : Prot := ⟨false, true, false⟩

/-- An OS protection map that allows everything everywhere. -/
def exOsAll : Nat → Prot := fun _ => ⟨true, true, true⟩

/-- An empty cache with alignment 1. -/
def exEmpty : RState := ⟨1, [], 0⟩

/-- A cache holding one referenced read-write host region over [0, 2). -/
def exOne : RState :=
  ⟨1, [⟨0, 0, 2, ⟨true, true, false⟩, .host, 1, true, false⟩], 1⟩

/-- A cache holding one unreferenced read-write host region over [0, 4). -/
def exOneIdle : RState :=
  ⟨1, [⟨0, 0, 4, ⟨true, true, false⟩, .host, 0, true, false⟩], 1⟩

/-- An example environment for installer cmp callbacks. -/
def exEnv : CmpEnv := fun _ _ _ => 7

/-- An example installer-owned device descriptor. -/
def exDevAttr : ucm_mem_attr_t :=
  ⟨.UCS_MEMORY_TYPE_CUDA, .installerCmp 0, .installerDestroy 0⟩

/-- An example installer list in which nobody recognizes the range. -/
def exInstallers : List ucm_event_installer_t :=
  [⟨none⟩, ⟨some (.UCS_ERR_INVALID_ADDR, exDevAttr)⟩]

/-- An OS protection map: read-only below address 2, read-write above. -/
def exOsSplit : Nat → Prot := fun a =>
  if a < 2 then ⟨true, false, false⟩ else ⟨true, true, false⟩

/-- The region created by a miss get over [0, 2) on the empty cache. -/
def exRegion02 : Region := ⟨0, 0, 2, exProtRW, .host, 1, true, false⟩

/-- The cache state right after that get. -/
def exAfterGet : RState := ⟨1, [exRegion02], 1⟩

/-- A cache holding two disjoint idle read-write host regions [0, 2) and
[3, 5). -/
def exTwo : RState :=
  ⟨1, [⟨0, 0, 2, ⟨true, true, false⟩, .host, 0, true, false⟩,
       ⟨1, 3, 5, ⟨true, true, false⟩, .host, 0, true, false⟩], 2⟩

/-- Modelled from the spec: one allocate/get/put/free cycle on a device
range (spec section 4.5 step 1 and section 8 scenario 3).  The freshly
allocated device range is classified with a descriptor distinct from every
other allocation of the kind, modelled by the allocation counter i; after
the get the caller puts the region and the free raises a memory-kind free
event over the range. -/
def deviceCycle (A L : Nat) (prt : Prot) (fam : Nat) (os : Nat → Prot)
    (σ : RState) (i : Nat) : Option Nat × RState :=
  match ucs_rcache_get σ A L prt (.device fam i) os true with
  | (.ok r _, σ1) =>
    (some r.rid,
     ucs_rcache_invalidate_range (ucs_rcache_region_put σ1 r.rid) A L)
  | (.err _, σ1) => (none, σ1)

/-- Run n device cycles starting at allocation counter i, collecting the
returned region identities. -/
def deviceCycles (A L : Nat) (prt : Prot) (fam : Nat) (os : Nat → Prot) :
    RState → Nat → Nat → List Nat × RState
  | σ, _, 0 => ([], σ)
  | σ, i, n + 1 =>
    match deviceCycle A L prt fam os σ i with
    | (some rid, σ2) =>
      (rid :: (deviceCycles A L prt fam os σ2 (i + 1) n).1,
       (deviceCycles A L prt fam os σ2 (i + 1) n).2)
    | (none, σ2) => deviceCycles A L prt fam os σ2 (i + 1) n

/-- A reachable state with one IN_PGTABLE region and one overlapping
INVALID region, both referenced. -/
def c3PreState : RState :=
  ⟨1, [⟨1, 0, 2, ⟨true, true, false⟩, .host, 1, true, false⟩,
       ⟨0, 0, 2, ⟨true, true, false⟩, .host, 1, false, true⟩], 2⟩

/-- The state after an unmap event over [0, 2) hits c3PreState: both
regions are now INVALID while still alive. -/
def c3PostState : RState :=
  ⟨1, [⟨1, 0, 2, ⟨true, true, false⟩, .host, 1, false, true⟩,
       ⟨0, 0, 2, ⟨true, true, false⟩, .host, 1, false, true⟩], 2⟩

/-! ## Helper lemmas -/

theorem Prot.contains_refl (a : Prot) : a.contains a = true := by
  revert a; decide

theorem Prot.contains_union_left (a b : Prot) : (a.union b).contains a = true := by
  revert a b; decide

theorem Prot.contains_trans (a b c : Prot) (h1 : a.contains b = true)
    (h2 : b.contains c = true) : a.contains c = true := by
  revert a b c; decide

theorem foldl_union_contains (l : List Region) (a : Prot) :
    ((l.foldl (fun x r => x.union r.prot) a).contains a) = true := by
  induction l generalizing a with
  | nil => exact Prot.contains_refl a
  | cons r l ih =>
    rw [List.foldl_cons]
    exact Prot.contains_trans _ _ _ (ih (a.union r.prot)) (Prot.contains_union_left a r.prot)

theorem foldl_min_le_init (l : List Region) (s : Nat) :
    l.foldl (fun a r => min a r.start) s ≤ s := by
  induction l generalizing s with
  | nil => exact Nat.le_refl s
  | cons r l ih =>
    rw [List.foldl_cons]
    exact Nat.le_trans (ih (min s r.start)) (Nat.min_le_left s r.start)

theorem foldl_min_eq_or (l : List Region) (s : Nat) :
    l.foldl (fun a r => min a r.start) s = s ∨
      ∃ r ∈ l, l.foldl (fun a r => min a r.start) s = r.start := by
  induction l generalizing s with
  | nil => exact Or.inl rfl
  | cons r l ih =>
    rw [List.foldl_cons]
    rcases ih (min s r.start) with h | ⟨m, hm, he⟩
    · rw [h]
      rcases Nat.le_total s r.start with hle | hle
      · rw [Nat.min_eq_left hle]; exact Or.inl rfl
      · rw [Nat.min_eq_right hle]
        exact Or.inr ⟨r, List.mem_cons_self r l, rfl⟩
    · exact Or.inr ⟨m, List.mem_cons_of_mem r hm, he⟩

theorem foldl_max_init_le (l : List Region) (e : Nat) :
    e ≤ l.foldl (fun a r => max a r.rend) e := by
  induction l generalizing e with
  | nil => exact Nat.le_refl e
  | cons r l ih =>
    rw [List.foldl_cons]
    exact Nat.le_trans (Nat.le_max_left e r.rend) (ih (max e r.rend))

theorem foldl_max_eq_or (l : List Region) (e : Nat) :
    l.foldl (fun a r => max a r.rend) e = e ∨
      ∃ r ∈ l, l.foldl (fun a r => max a r.rend) e = r.rend := by
  induction l generalizing e with
  | nil => exact Or.inl rfl
  | cons r l ih =>
    rw [List.foldl_cons]
    rcases ih (max e r.rend) with h | ⟨m, hm, he⟩
    · rw [h]
      rcases Nat.le_total r.rend e with hle | hle
      · rw [Nat.max_eq_left hle]; exact Or.inl rfl
      · rw [Nat.max_eq_right hle]
        exact Or.inr ⟨r, List.mem_cons_self r l, rfl⟩
    · exact Or.inr ⟨m, List.mem_cons_of_mem r hm, he⟩

theorem alignDown_le (a al : Nat) : alignDown a al ≤ a :=
  Nat.div_mul_le_self a al

theorem le_alignUp (a al : Nat) (h : 1 ≤ al) : a ≤ alignUp a al := by
  unfold alignUp
  rw [Nat.mul_comm]
  have h2 := Nat.div_add_mod (a + al - 1) al
  have hmod : (a + al - 1) % al < al := Nat.mod_lt _ h
  omega

theorem invOne_some_cases (s e : Nat) (r r' : Region) (h : invOne s e r = some r') :
    (r' = r ∧ ¬(r.in_pgtable = true ∧ r.overlapsI s e = true)) ∨
    (r'.rid = r.rid ∧ r'.start = r.start ∧ r'.rend = r.rend ∧ r'.prot = r.prot ∧
     r'.mem_kind = r.mem_kind ∧ r'.refcount = r.refcount ∧
     r'.in_pgtable = false ∧ r'.invalid = true ∧ 1 ≤ r.refcount) := by
  unfold invOne at h
  split at h
  · rename_i hcond
    split at h
    · exact absurd h (by simp)
    · rename_i hrc
      injection h with h
      subst h
      right
      refine ⟨rfl, rfl, rfl, rfl, rfl, rfl, rfl, rfl, ?_⟩
      omega
  · rename_i hcond
    injection h with h
    subst h
    left
    refine ⟨rfl, ?_⟩
    intro hc
    exact hcond (by rw [hc.1, hc.2]; rfl)

theorem invOne_some_fields (s e : Nat) (r r' : Region) (h : invOne s e r = some r') :
    r'.rid = r.rid ∧ r'.start = r.start ∧ r'.rend = r.rend ∧ r'.prot = r.prot ∧
    r'.mem_kind = r.mem_kind ∧ r'.refcount = r.refcount := by
  rcases invOne_some_cases s e r r' h with ⟨he, _⟩ | ⟨h1, h2, h3, h4, h5, h6, _⟩
  · subst he; exact ⟨rfl, rfl, rfl, rfl, rfl, rfl⟩
  · exact ⟨h1, h2, h3, h4, h5, h6⟩

theorem putf_some_cases (rid : Nat) (r r' : Region) (h : putf rid r = some r') :
    (r' = r ∧ r.rid ≠ rid) ∨
    (r.rid = rid ∧ ¬(r.invalid = true ∧ r.refcount ≤ 1) ∧
     r' = { r with refcount := r.refcount - 1 }) := by
  unfold putf at h
  split at h
  · rename_i hrid
    split at h
    · exact absurd h (by simp)
    · rename_i hguard
      injection h with h
      right
      refine ⟨hrid, ?_, h.symm⟩
      intro hc
      exact hguard ⟨hc.1, hc.2⟩
  · rename_i hrid
    injection h with h
    exact Or.inl ⟨h.symm, hrid⟩

theorem bumpf_some_cases (rid : Nat) (r r' : Region) (h : bumpf rid r = some r') :
    (r' = r ∧ r.rid ≠ rid) ∨
    (r.rid = rid ∧ r' = { r with refcount := r.refcount + 1 }) := by
  unfold bumpf at h
  split at h
  · rename_i hrid
    injection h with h
    exact Or.inr ⟨hrid, h.symm⟩
  · rename_i hrid
    injection h with h
    exact Or.inl ⟨h.symm, hrid⟩

theorem pgtable_pairwise_filterMap (f : Region → Option Region)
    (hf1 : ∀ r r', f r = some r' → r'.start = r.start ∧ r'.rend = r.rend)
    (hf2 : ∀ r r', f r = some r' → r'.in_pgtable = true → r.in_pgtable = true)
    (l : List Region)
    (h : (l.filter (fun r => r.in_pgtable)).Pairwise Region.disjointWith) :
    ((l.filterMap f).filter (fun r => r.in_pgtable)).Pairwise Region.disjointWith := by
  induction l with
  | nil => exact h
  | cons r l ih =>
    rw [List.filterMap_cons]
    by_cases hpg : r.in_pgtable = true
    · rw [List.filter_cons_of_pos (by simpa using hpg)] at h
      obtain ⟨hhead, htail⟩ := List.pairwise_cons.mp h
      cases hfr : f r with
      | none => exact ih htail
      | some r' =>
        by_cases hpg' : r'.in_pgtable = true
        · rw [List.filter_cons_of_pos (by simpa using hpg')]
          refine List.pairwise_cons.mpr ⟨?_, ih htail⟩
          intro b hb
          rw [List.mem_filter] at hb
          obtain ⟨hbm, hbpg⟩ := hb
          rw [List.mem_filterMap] at hbm
          obtain ⟨b0, hb0m, hb0f⟩ := hbm
          have hb0pg : b0.in_pgtable = true := hf2 b0 b hb0f (by simpa using hbpg)
          have hrel : Region.disjointWith r b0 :=
            hhead b0 (List.mem_filter.mpr ⟨hb0m, by simpa using hb0pg⟩)
          obtain ⟨hs1, he1⟩ := hf1 r r' hfr
          obtain ⟨hs2, he2⟩ := hf1 b0 b hb0f
          unfold Region.disjointWith at hrel ⊢
          rw [hs1, he1, hs2, he2]
          exact hrel
        · rw [List.filter_cons_of_neg (by simpa using hpg')]
          exact ih htail
    · rw [List.filter_cons_of_neg (by simpa using hpg)] at h
      cases hfr : f r with
      | none => exact ih h
      | some r' =>
        have hpg' : ¬ r'.in_pgtable = true := fun hc => hpg (hf2 r r' hfr hc)
        rw [List.filter_cons_of_neg (by simpa using hpg')]
        exact ih h

theorem map_rid_filterMap_sublist (f : Region → Option Region)
    (hf : ∀ r r', f r = some r' → r'.rid = r.rid) (l : List Region) :
    ((l.filterMap f).map Region.rid).Sublist (l.map Region.rid) := by
  induction l with
  | nil => simp
  | cons r l ih =>
    rw [List.filterMap_cons]
    cases hfr : f r with
    | none => rw [List.map_cons]; exact ih.cons _
    | some r' =>
      rw [List.map_cons, List.map_cons]
      have : r'.rid = r.rid := hf r r' hfr
      rw [this]
      exact ih.cons₂ _

theorem WF_filterMap (σ : RState) (f : Region → Option Region)
    (hrid : ∀ r r', f r = some r' → r'.rid = r.rid)
    (hiv : ∀ r r', f r = some r' → r'.start = r.start ∧ r'.rend = r.rend)
    (hpgt : ∀ r r', f r = some r' → r'.in_pgtable = true → r.in_pgtable = true)
    (hflag : ∀ r r', f r = some r' → r.invalid = !r.in_pgtable →
      r'.invalid = !r'.in_pgtable)
    (href : ∀ r r', f r = some r' → (r.invalid = true → 1 ≤ r.refcount) →
      r'.invalid = true → 1 ≤ r'.refcount)
    (hwf : WF σ) : WF { σ with regions := σ.regions.filterMap f } := by
  obtain ⟨hal, hpair, hfl, hbd, hlt, hnd, hrf⟩ := hwf
  refine ⟨hal, ?_, ?_, ?_, ?_, ?_, ?_⟩
  · exact pgtable_pairwise_filterMap f hiv hpgt σ.regions hpair
  · intro r' hm
    obtain ⟨r, hrm, hfr⟩ := List.mem_filterMap.mp hm
    exact hflag r r' hfr (hfl r hrm)
  · intro r' hm
    obtain ⟨r, hrm, hfr⟩ := List.mem_filterMap.mp hm
    obtain ⟨hs, he⟩ := hiv r r' hfr
    rw [hs, he]
    exact hbd r hrm
  · intro r' hm
    obtain ⟨r, hrm, hfr⟩ := List.mem_filterMap.mp hm
    rw [hrid r r' hfr]
    exact hlt r hrm
  · exact (hnd.sublist (map_rid_filterMap_sublist f hrid σ.regions))
  · intro r' hm
    obtain ⟨r, hrm, hfr⟩ := List.mem_filterMap.mp hm
    exact href r r' hfr (hrf r hrm)

theorem WF_invalidateRange (σ : RState) (s e : Nat) (hwf : WF σ) :
    WF (invalidateRange σ s e) := by
  refine WF_filterMap σ (invOne s e) ?_ ?_ ?_ ?_ ?_ hwf
  · intro r r' h; exact (invOne_some_fields s e r r' h).1
  · intro r r' h
    exact ⟨(invOne_some_fields s e r r' h).2.1, (invOne_some_fields s e r r' h).2.2.1⟩
  · intro r r' h hpg
    rcases invOne_some_cases s e r r' h with ⟨he, _⟩ | ⟨_, _, _, _, _, _, hp, _, _⟩
    · rw [← he]; exact hpg
    · rw [hp] at hpg; exact absurd hpg (by simp)
  · intro r r' h hfl
    rcases invOne_some_cases s e r r' h with ⟨he, _⟩ | ⟨_, _, _, _, _, _, hp, hi, _⟩
    · rw [he]; exact hfl
    · rw [hp, hi]; rfl
  · intro r r' h hrf hi
    rcases invOne_some_cases s e r r' h with ⟨he, _⟩ | ⟨_, _, _, _, _, hc, _, _, hok⟩
    · rw [he] at hi ⊢; exact hrf hi
    · rw [hc]; exact hok

theorem WF_put (σ : RState) (rid : Nat) (hwf : WF σ) :
    WF (ucs_rcache_region_put σ rid) := by
  refine WF_filterMap σ (putf rid) ?_ ?_ ?_ ?_ ?_ hwf
  · intro r r' h
    rcases putf_some_cases rid r r' h with ⟨he, _⟩ | ⟨_, _, he⟩
    · rw [he]
    · rw [he]
  · intro r r' h
    rcases putf_some_cases rid r r' h with ⟨he, _⟩ | ⟨_, _, he⟩
    · rw [he]; exact ⟨rfl, rfl⟩
    · rw [he]; exact ⟨rfl, rfl⟩
  · intro r r' h hpg
    rcases putf_some_cases rid r r' h with ⟨he, _⟩ | ⟨_, _, he⟩
    · rw [← he]; exact hpg
    · rw [he] at hpg; exact hpg
  · intro r r' h hfl
    rcases putf_some_cases rid r r' h with ⟨he, _⟩ | ⟨_, _, he⟩
    · rw [he]; exact hfl
    · rw [he]; exact hfl
  · intro r r' h hrf hi
    rcases putf_some_cases rid r r' h with ⟨he, _⟩ | ⟨_, hg, he⟩
    · rw [he] at hi ⊢; exact hrf hi
    · rw [he] at hi ⊢
      have : r.invalid = true := hi
      have h1 : 1 ≤ r.refcount := hrf this
      have h2 : ¬ r.refcount ≤ 1 := fun hc => hg ⟨this, hc⟩
      show 1 ≤ r.refcount - 1
      omega

theorem WF_bump (σ : RState) (rid : Nat) (hwf : WF σ) :
    WF (bumpRef σ rid) := by
  refine WF_filterMap σ (bumpf rid) ?_ ?_ ?_ ?_ ?_ hwf
  · intro r r' h
    rcases bumpf_some_cases rid r r' h with ⟨he, _⟩ | ⟨_, he⟩
    · rw [he]
    · rw [he]
  · intro r r' h
    rcases bumpf_some_cases rid r r' h with ⟨he, _⟩ | ⟨_, he⟩
    · rw [he]; exact ⟨rfl, rfl⟩
    · rw [he]; exact ⟨rfl, rfl⟩
  · intro r r' h hpg
    rcases bumpf_some_cases rid r r' h with ⟨he, _⟩ | ⟨_, he⟩
    · rw [← he]; exact hpg
    · rw [he] at hpg; exact hpg
  · intro r r' h hfl
    rcases bumpf_some_cases rid r r' h with ⟨he, _⟩ | ⟨_, he⟩
    · rw [he]; exact hfl
    · rw [he]; exact hfl
  · intro r r' h hrf hi
    rcases bumpf_some_cases rid r r' h with ⟨he, _⟩ | ⟨_, he⟩
    · rw [he] at hi ⊢; exact hrf hi
    · rw [he] at hi ⊢
      show 1 ≤ r.refcount + 1
      omega

theorem filter_filterMap_invOne (s e : Nat) (l : List Region) :
    (l.filterMap (invOne s e)).filter (fun r => r.in_pgtable) =
      ((l.filter (fun r => r.in_pgtable)).filter (fun r => !(r.overlapsI s e))) := by
  induction l with
  | nil => rfl
  | cons r l ih =>
    rw [List.filterMap_cons]
    by_cases h1 : r.in_pgtable = true
    · by_cases h2 : r.overlapsI s e = true
      · by_cases h3 : r.refcount = 0
        · rw [show invOne s e r = none by unfold invOne; rw [h1, h2]; simp [h3]]
          rw [List.filter_cons_of_pos (by simpa using h1),
              List.filter_cons_of_neg (by simp [h2])]
          exact ih
        · rw [show invOne s e r =
                some { r with in_pgtable := false, invalid := true } by
              unfold invOne; rw [h1, h2]; simp [h3]]
          rw [List.filter_cons_of_neg (by simp),
              List.filter_cons_of_pos (by simpa using h1),
              List.filter_cons_of_neg (by simp [h2])]
          exact ih
      · rw [show invOne s e r = some r by
              unfold invOne; rw [h1]
              simp [show r.overlapsI s e = false by simpa using h2]]
        rw [List.filter_cons_of_pos (by simpa using h1),
            List.filter_cons_of_pos (by simpa using h1),
            List.filter_cons_of_pos (by simp [show r.overlapsI s e = false by simpa using h2]),
            ih]
    · rw [show invOne s e r = some r by
            unfold invOne
            simp [show r.in_pgtable = false by simpa using h1]]
      rw [List.filter_cons_of_neg (by simpa using h1),
          List.filter_cons_of_neg (by simpa using h1)]
      exact ih

theorem pgtable_invalidateRange (σ : RState) (s e : Nat) :
    pgtable (invalidateRange σ s e) =
      (pgtable σ).filter (fun r => !(r.overlapsI s e)) :=
  filter_filterMap_invOne s e σ.regions

theorem disjointWith_symm : Symmetric Region.disjointWith := by
  intro x y hxy
  unfold Region.disjointWith at hxy ⊢
  tauto

theorem overlapsI_false_iff (b : Region) (s e : Nat) :
    b.overlapsI s e = false ↔ (e ≤ b.start ∨ b.rend ≤ s) := by
  unfold Region.overlapsI
  constructor
  · intro h
    by_contra hc
    push_neg at hc
    simp [hc.1, hc.2] at h
  · intro h
    rcases h with h | h
    · simp [Nat.not_lt_of_le h]
    · simp [Nat.not_lt_of_le h]

theorem overlapsI_true_iff (b : Region) (s e : Nat) :
    b.overlapsI s e = true ↔ (b.start < e ∧ s < b.rend) := by
  unfold Region.overlapsI
  simp

theorem hull_disjoint (σ : RState) (hwf : WF σ) (s e : Nat)
    (L : List Region) (hL : ∀ m ∈ L, m ∈ pgtable σ ∧ m.overlapsI s e = true)
    (b : Region) (hb : b ∈ pgtable σ) (hbno : b.overlapsI s e = false)
    (hbd : b.start < b.rend) :
    L.foldl (fun a r => max a r.rend) e ≤ b.start ∨
      b.rend ≤ L.foldl (fun a r => min a r.start) s := by
  obtain ⟨-, hpair, -, -, -, -, -⟩ := hwf
  have hno := (overlapsI_false_iff b s e).mp hbno
  by_contra hc
  push_neg at hc
  obtain ⟨hlt1, hlt2⟩ := hc
  rcases hno with hno | hno
  · rcases foldl_max_eq_or L e with hmax | ⟨m, hm, hmax⟩
    · omega
    · obtain ⟨hmp, hmo⟩ := hL m hm
      have hbm : b ≠ m := by
        intro h
        rw [← h] at hmo
        rw [hbno] at hmo
        exact absurd hmo (by simp)
      have hd : Region.disjointWith b m := hpair.forall disjointWith_symm hb hmp hbm
      have hmov := (overlapsI_true_iff m s e).mp hmo
      unfold Region.disjointWith at hd
      rcases hd with hd | hd <;> omega
  · rcases foldl_min_eq_or L s with hmin | ⟨m, hm, hmin⟩
    · omega
    · obtain ⟨hmp, hmo⟩ := hL m hm
      have hbm : b ≠ m := by
        intro h
        rw [← h] at hmo
        rw [hbno] at hmo
        exact absurd hmo (by simp)
      have hd : Region.disjointWith b m := hpair.forall disjointWith_symm hb hmp hbm
      have hmov := (overlapsI_true_iff m s e).mp hmo
      unfold Region.disjointWith at hd
      rcases hd with hd | hd <;> omega

theorem mem_sameKindList (σ : RState) (s e : Nat) (kind : MemKind) (m : Region)
    (h : m ∈ sameKindList σ s e kind) :
    m ∈ pgtable σ ∧ m.overlapsI s e = true ∧ m.mem_kind = kind := by
  unfold sameKindList overlapList at h
  rw [List.mem_filter] at h
  obtain ⟨h1, h2⟩ := h
  rw [List.mem_filter] at h1
  exact ⟨h1.1, h1.2, by simpa using h2⟩

theorem reconcile_some (σ : RState) (s e : Nat) (p : Prot) (kind : MemKind)
    (os : Nat → Prot) (ns ne : Nat) (np : Prot)
    (h : reconcile σ s e p kind os = some (ns, ne, np)) :
    ns ≤ s ∧ e ≤ ne ∧ osCheck os ns ne np = true ∧ np.contains p = true ∧
    (np = candProt σ s e p kind ∨ np = p) ∧
    ∃ L : List Region, (∀ m ∈ L, m ∈ sameKindList σ s e kind) ∧
      ns = L.foldl (fun a r => min a r.start) s ∧
      ne = L.foldl (fun a r => max a r.rend) e := by
  unfold reconcile at h
  split at h
  · rename_i hos
    simp only [Option.some.injEq, Prod.mk.injEq] at h
    obtain ⟨h1, h2, h3⟩ := h
    subst h1; subst h2; subst h3
    refine ⟨foldl_min_le_init _ _, foldl_max_init_le _ _, hos, ?_, Or.inl rfl, ?_⟩
    · exact foldl_union_contains _ _
    · exact ⟨sameKindList σ s e kind, fun m hm => hm, rfl, rfl⟩
  · split at h
    · exact absurd h (by simp)
    · rename_i hosreq
      have hreq : osCheck os s e p = true := by
        by_contra hcon
        exact hosreq (by simp [Bool.not_eq_true] at hcon; rw [hcon]; rfl)
      split at h
      · rename_i hdom
        simp only [Option.some.injEq, Prod.mk.injEq] at h
        obtain ⟨h1, h2, h3⟩ := h
        subst h1; subst h2; subst h3
        refine ⟨foldl_min_le_init _ _, foldl_max_init_le _ _, hdom, Prot.contains_refl p,
          Or.inr rfl, ?_⟩
        refine ⟨domList σ s e p kind, ?_, rfl, rfl⟩
        intro m hm
        unfold domList at hm
        exact List.mem_of_mem_filter hm
      · simp only [Option.some.injEq, Prod.mk.injEq] at h
        obtain ⟨h1, h2, h3⟩ := h
        subst h1; subst h2; subst h3
        exact ⟨Nat.le_refl s, Nat.le_refl e, hreq, Prot.contains_refl p, Or.inr rfl,
          [], by intro m hm; exact absurd hm (by simp), rfl, rfl⟩

theorem norm_lt (addr length al : Nat) (hal : 1 ≤ al) (hlen : length ≠ 0) :
    alignDown addr al < alignUp (addr + length) al := by
  have h1 := alignDown_le addr al
  have h2 := le_alignUp (addr + length) al hal
  omega

theorem WF_slow_insert (σ : RState) (s e : Nat) (p : Prot) (kind : MemKind)
    (os : Nat → Prot) (ns ne : Nat) (np : Prot) (hwf : WF σ) (hse : s < e)
    (hrec : reconcile σ s e p kind os = some (ns, ne, np)) :
    WF { alignment := σ.alignment
         regions := (⟨σ.nextId, ns, ne, np, kind, 1, true, false⟩ : Region) ::
                    (invalidateRange σ s e).regions
         nextId := σ.nextId + 1 } := by
  have hwfc := hwf
  obtain ⟨hns, hne, hosk, hcp, hnpo, L, hLm, hLs, hLe⟩ :=
    reconcile_some σ s e p kind os ns ne np hrec
  have hwf1 := WF_invalidateRange σ s e hwf
  obtain ⟨hal1, hpair1, hfl1, hbd1, hlt1, hnd1, hrf1⟩ := hwf1
  obtain ⟨hal, hpair, hfl, hbd, hlt, hnd, hrf⟩ := hwf
  refine ⟨hal, ?_, ?_, ?_, ?_, ?_, ?_⟩
  · unfold pgtable
    show List.Pairwise Region.disjointWith (List.filter _
      ((⟨σ.nextId, ns, ne, np, kind, 1, true, false⟩ : Region) ::
        (invalidateRange σ s e).regions))
    rw [List.filter_cons_of_pos (by rfl)]
    refine List.pairwise_cons.mpr ⟨?_, hpair1⟩
    intro b hb
    have hb' : b ∈ pgtable (invalidateRange σ s e) := hb
    rw [pgtable_invalidateRange] at hb'
    rw [List.mem_filter] at hb'
    obtain ⟨hbp, hbno⟩ := hb'
    have hbnof : b.overlapsI s e = false := by simpa using hbno
    have hbdlt : b.start < b.rend := hbd b (List.mem_of_mem_filter hbp)
    have hd := hull_disjoint σ hwfc s e L ?_ b hbp hbnof hbdlt
    · show ne ≤ b.start ∨ b.rend ≤ ns
      rw [hLs, hLe]
      exact hd
    · intro m hm
      have := mem_sameKindList σ s e kind m (hLm m hm)
      exact ⟨this.1, this.2.1⟩
  · intro r hm
    rcases List.mem_cons.mp hm with he | hm
    · subst he; rfl
    · exact hfl1 r hm
  · intro r hm
    rcases List.mem_cons.mp hm with he | hm
    · subst he
      show ns < ne
      omega
    · exact hbd1 r hm
  · intro r hm
    rcases List.mem_cons.mp hm with he | hm
    · subst he
      show σ.nextId < σ.nextId + 1
      omega
    · have h1 := hlt1 r hm
      have h2 : (invalidateRange σ s e).nextId = σ.nextId := rfl
      show r.rid < σ.nextId + 1
      omega
  · show ((⟨σ.nextId, ns, ne, np, kind, 1, true, false⟩ : Region) ::
      (invalidateRange σ s e).regions).map Region.rid |>.Nodup
    rw [List.map_cons]
    refine List.nodup_cons.mpr ⟨?_, hnd1⟩
    intro hcmem
    rw [List.mem_map] at hcmem
    obtain ⟨r, hrm, hre⟩ := hcmem
    have h1 := hlt1 r hrm
    have h2 : (invalidateRange σ s e).nextId = σ.nextId := rfl
    have h3 : r.rid = σ.nextId := hre
    omega
  · intro r hm
    rcases List.mem_cons.mp hm with he | hm
    · subst he
      intro hc
      exact absurd hc (by simp)
    · exact hrf1 r hm

theorem WF_slowPath (σ : RState) (s e : Nat) (p : Prot) (kind : MemKind)
    (os : Nat → Prot) (regOk : Bool) (hwf : WF σ) (hse : s < e) :
    WF (slowPath σ s e p kind os regOk).2 := by
  unfold slowPath
  cases hrec : reconcile σ s e p kind os with
  | none => exact WF_invalidateRange σ s e hwf
  | some t =>
    obtain ⟨ns, ne, np⟩ := t
    cases regOk with
    | true => exact WF_slow_insert σ s e p kind os ns ne np hwf hse hrec
    | false => exact WF_invalidateRange σ s e hwf

theorem WF_get (σ : RState) (addr length : Nat) (p : Prot) (kind : MemKind)
    (os : Nat → Prot) (regOk : Bool) (hwf : WF σ) :
    WF (ucs_rcache_get σ addr length p kind os regOk).2 := by
  unfold ucs_rcache_get
  split
  · exact hwf
  · rename_i hlen
    cases hfl : fastLookup σ (alignDown addr σ.alignment)
        (alignUp (addr + length) σ.alignment) p kind with
    | some r =>
      exact WF_bump σ r.rid hwf
    | none =>
      exact WF_slowPath σ _ _ p kind os regOk hwf
        (norm_lt addr length σ.alignment hwf.1 hlen)

theorem WF_execOp (σ : RState) (op : ROp) (hwf : WF σ) : WF (execOp σ op) := by
  cases op with
  | get a l p k os rok => exact WF_get σ a l p k os rok hwf
  | put rid => exact WF_put σ rid hwf
  | event a l => exact WF_invalidateRange σ a (a + l) hwf

theorem WF_execOps (σ : RState) (ops : List ROp) (hwf : WF σ) :
    WF (execOps σ ops) := by
  induction ops generalizing σ with
  | nil => exact hwf
  | cons op ops ih => exact ih (execOp σ op) (WF_execOp σ op hwf)

theorem fastLookup_some (σ : RState) (s e : Nat) (p : Prot) (kind : MemKind)
    (r0 : Region) (h : fastLookup σ s e p kind = some r0) :
    r0 ∈ pgtable σ ∧ r0.coversI s e = true ∧ r0.prot.contains p = true ∧
      r0.mem_kind = kind := by
  unfold fastLookup at h
  have h1 := List.find?_some h
  have h2 := List.mem_of_find?_eq_some h
  simp only [Bool.and_eq_true, beq_iff_eq] at h1
  exact ⟨h2, h1.1.1, h1.1.2, h1.2⟩

theorem rid_inj (σ : RState) (hwf : WF σ) (r1 r2 : Region) (h1 : r1 ∈ σ.regions)
    (h2 : r2 ∈ σ.regions) (he : r1.rid = r2.rid) : r1 = r2 := by
  obtain ⟨-, -, -, -, -, hnd, -⟩ := hwf
  exact List.inj_on_of_nodup_map hnd h1 h2 he

theorem coversI_true_iff (r : Region) (s e : Nat) :
    r.coversI s e = true ↔ (r.start ≤ s ∧ e ≤ r.rend) := by
  unfold Region.coversI
  simp

theorem fastLookup_eq_some_of_covering (σ : RState) (hwf : WF σ) (s e : Nat)
    (hse : s < e) (p : Prot) (kind : MemKind) (r : Region) (hr : r ∈ pgtable σ)
    (hcov : r.coversI s e = true) (hp : r.prot.contains p = true)
    (hk : r.mem_kind = kind) :
    fastLookup σ s e p kind = some r := by
  have hwfc := hwf
  obtain ⟨-, hpair, -, -, -, -, -⟩ := hwf
  unfold fastLookup
  cases hfind : (pgtable σ).find? (fun r =>
      r.coversI s e && r.prot.contains p && (r.mem_kind == kind)) with
  | none =>
    rw [List.find?_eq_none] at hfind
    exfalso
    apply hfind r hr
    rw [hcov, hp, hk]
    simp
  | some x =>
    have hx1 := List.find?_some hfind
    have hx2 := List.mem_of_find?_eq_some hfind
    simp only [Bool.and_eq_true, beq_iff_eq] at hx1
    have hxcov := (coversI_true_iff x s e).mp hx1.1.1
    have hrcov := (coversI_true_iff r s e).mp hcov
    by_cases hxe : x = r
    · rw [hxe]
    · have hd : Region.disjointWith x r := hpair.forall disjointWith_symm hx2 hr hxe
      unfold Region.disjointWith at hd
      exfalso
      rcases hd with hd | hd <;> omega

theorem get_ok (σ : RState) (addr length : Nat) (p : Prot) (kind : MemKind)
    (os : Nat → Prot) (regOk : Bool) (r : Region) (hit : Bool) (σ' : RState)
    (h : ucs_rcache_get σ addr length p kind os regOk = (.ok r hit, σ')) :
    length ≠ 0 ∧
    ((∃ r0 ∈ pgtable σ,
        r0.coversI (alignDown addr σ.alignment)
          (alignUp (addr + length) σ.alignment) = true ∧
        r0.prot.contains p = true ∧ r0.mem_kind = kind ∧
        r = { r0 with refcount := r0.refcount + 1 } ∧ hit = true ∧
        σ' = bumpRef σ r0.rid) ∨
     (∃ ns ne np,
        reconcile σ (alignDown addr σ.alignment)
          (alignUp (addr + length) σ.alignment) p kind os = some (ns, ne, np) ∧
        fastLookup σ (alignDown addr σ.alignment)
          (alignUp (addr + length) σ.alignment) p kind = none ∧
        r = ⟨σ.nextId, ns, ne, np, kind, 1, true, false⟩ ∧ hit = false ∧
        regOk = true ∧
        σ' = { alignment := σ.alignment
               regions := r :: (invalidateRange σ (alignDown addr σ.alignment)
                 (alignUp (addr + length) σ.alignment)).regions
               nextId := σ.nextId + 1 })) := by
  unfold ucs_rcache_get at h
  split at h
  · exact absurd h (by simp)
  · rename_i hlen
    refine ⟨hlen, ?_⟩
    split at h
    · rename_i r0 hfl
      simp only [Prod.mk.injEq, GetResult.ok.injEq] at h
      obtain ⟨⟨hr, hhit⟩, hσ⟩ := h
      obtain ⟨hm, hcov, hp, hk⟩ := fastLookup_some σ _ _ p kind r0 hfl
      exact Or.inl ⟨r0, hm, hcov, hp, hk, hr.symm, hhit.symm, hσ.symm⟩
    · rename_i hfl
      unfold slowPath at h
      split at h
      · exact absurd h (by simp)
      · rename_i ns ne np hrec
        split at h
        · rename_i hreg
          simp only [Prod.mk.injEq, GetResult.ok.injEq] at h
          obtain ⟨⟨hr, hhit⟩, hσ⟩ := h
          refine Or.inr ⟨ns, ne, np, hrec, hfl, hr.symm, hhit.symm, hreg, ?_⟩
          rw [← hσ, ← hr]
        · exact absurd h (by simp)

theorem deadRid_filterMap (σ : RState) (f : Region → Option Region) (k : Nat)
    (hrid : ∀ r r', f r = some r' → r'.rid = r.rid)
    (hpgt : ∀ r r', f r = some r' → r'.in_pgtable = true → r.in_pgtable = true)
    (hd : deadRid σ k) :
    deadRid { σ with regions := σ.regions.filterMap f } k := by
  intro r' hm hre
  obtain ⟨r, hrm, hfr⟩ := List.mem_filterMap.mp hm
  cases hpgv : r'.in_pgtable with
  | false => rfl
  | true =>
    have h1 := hpgt r r' hfr hpgv
    have h2 := hd r hrm (by rw [← hrid r r' hfr]; exact hre)
    rw [h1] at h2
    exact absurd h2 (by simp)

theorem deadRid_invalidateRange (σ : RState) (s e : Nat) (k : Nat)
    (hd : deadRid σ k) : deadRid (invalidateRange σ s e) k := by
  refine deadRid_filterMap σ (invOne s e) k ?_ ?_ hd
  · intro r r' h; exact (invOne_some_fields s e r r' h).1
  · intro r r' h hpg
    rcases invOne_some_cases s e r r' h with ⟨he, _⟩ | ⟨_, _, _, _, _, _, hp, _, _⟩
    · rw [← he]; exact hpg
    · rw [hp] at hpg; exact absurd hpg (by simp)

theorem deadRid_put (σ : RState) (rid : Nat) (k : Nat) (hd : deadRid σ k) :
    deadRid (ucs_rcache_region_put σ rid) k := by
  refine deadRid_filterMap σ (putf rid) k ?_ ?_ hd
  · intro r r' h
    rcases putf_some_cases rid r r' h with ⟨he, _⟩ | ⟨_, _, he⟩
    · rw [he]
    · rw [he]
  · intro r r' h hpg
    rcases putf_some_cases rid r r' h with ⟨he, _⟩ | ⟨_, _, he⟩
    · rw [← he]; exact hpg
    · rw [he] at hpg; exact hpg

theorem deadRid_bump (σ : RState) (rid : Nat) (k : Nat) (hd : deadRid σ k) :
    deadRid (bumpRef σ rid) k := by
  refine deadRid_filterMap σ (bumpf rid) k ?_ ?_ hd
  · intro r r' h
    rcases bumpf_some_cases rid r r' h with ⟨he, _⟩ | ⟨_, he⟩
    · rw [he]
    · rw [he]
  · intro r r' h hpg
    rcases bumpf_some_cases rid r r' h with ⟨he, _⟩ | ⟨_, he⟩
    · rw [← he]; exact hpg
    · rw [he] at hpg; exact hpg

theorem nextId_execOp_mono (σ : RState) (op : ROp) :
    σ.nextId ≤ (execOp σ op).nextId := by
  cases op with
  | get a l p k os rok =>
    show σ.nextId ≤ (ucs_rcache_get σ a l p k os rok).2.nextId
    unfold ucs_rcache_get
    split
    · exact Nat.le_refl _
    · split
      · exact Nat.le_refl _
      · unfold slowPath
        split
        · exact Nat.le_refl _
        · split
          · show σ.nextId ≤ σ.nextId + 1
            omega
          · exact Nat.le_refl _
  | put rid => exact Nat.le_refl _
  | event a l => exact Nat.le_refl _

theorem deadRid_execOp (σ : RState) (op : ROp) (k : Nat) (hk : k < σ.nextId)
    (hd : deadRid σ k) :
    deadRid (execOp σ op) k ∧ k < (execOp σ op).nextId := by
  refine ⟨?_, Nat.lt_of_lt_of_le hk (nextId_execOp_mono σ op)⟩
  cases op with
  | put rid => exact deadRid_put σ rid k hd
  | event a l => exact deadRid_invalidateRange σ a (a + l) k hd
  | get a l p kind os rok =>
    show deadRid (ucs_rcache_get σ a l p kind os rok).2 k
    unfold ucs_rcache_get
    split
    · exact hd
    · split
      · rename_i r0 hfl
        exact deadRid_bump σ r0.rid k hd
      · unfold slowPath
        split
        · exact deadRid_invalidateRange σ _ _ k hd
        · rename_i ns ne np hrec
          split
          · intro r' hm hre
            rcases List.mem_cons.mp hm with he | hm
            · subst he
              exact absurd hre (by show ¬ σ.nextId = k; omega)
            · exact deadRid_invalidateRange σ _ _ k hd r' hm hre
          · exact deadRid_invalidateRange σ _ _ k hd

theorem deadRid_execOps (σ : RState) (ops : List ROp) (k : Nat)
    (hk : k < σ.nextId) (hd : deadRid σ k) :
    deadRid (execOps σ ops) k ∧ k < (execOps σ ops).nextId := by
  induction ops generalizing σ with
  | nil => exact ⟨hd, hk⟩
  | cons op ops ih =>
    obtain ⟨hd1, hk1⟩ := deadRid_execOp σ op k hk hd
    exact ih (execOp σ op) hk1 hd1

theorem event_deadRid (σ : RState) (hwf : WF σ) (s e : Nat) (k : Nat)
    (hk : k ∈ eventInvalidated σ s e) :
    deadRid (invalidateRange σ s e) k ∧ k < σ.nextId := by
  unfold eventInvalidated at hk
  rw [List.mem_map] at hk
  obtain ⟨r0, hr0m, hr0k⟩ := hk
  have hr0 : r0 ∈ pgtable σ ∧ r0.overlapsI s e = true := by
    unfold overlapList at hr0m
    rw [List.mem_filter] at hr0m
    exact hr0m
  have hr0reg : r0 ∈ σ.regions := List.mem_of_mem_filter hr0.1
  have hwfc := hwf
  obtain ⟨-, -, -, -, hlt, -, -⟩ := hwfc
  refine ⟨?_, by rw [← hr0k]; exact hlt r0 hr0reg⟩
  intro r' hm hre
  obtain ⟨r, hrm, hfr⟩ := List.mem_filterMap.mp hm
  cases hpgv : r'.in_pgtable with
  | false => rfl
  | true =>
    exfalso
    rcases invOne_some_cases s e r r' hfr with ⟨he, hcond⟩ | ⟨_, _, _, _, _, _, hp, _, _⟩
    · subst he
      have hrr0 : r' = r0 := by
        apply rid_inj σ hwf r' r0 hrm hr0reg
        rw [hre, hr0k]
      apply hcond
      rw [hrr0]
      have hpg0 : r0.in_pgtable = true := by
        have := List.mem_filter.mp hr0.1
        simpa using this.2
      exact ⟨hpg0, hr0.2⟩
    · rw [hp] at hpgv
      exact absurd hpgv (by simp)

/-! ## Claim theorems -/

/-- C1: every region returned by a successful get is not INVALID, its
protection bitset contains the requested prot, and its memory-kind
descriptor equals the classification of the requested range; moreover,
once an invalidation event covering an interval has been processed, no
later get (after any further sequence of operations) returns a region
invalidated by that event. -/
theorem c1_get_never_returns_invalid :
    (∀ (σ : RState) (addr length : Nat) (p : Prot) (kind : MemKind)
       (os : Nat → Prot) (regOk : Bool) (r : Region) (hit : Bool) (σ' : RState),
       WF σ →
       ucs_rcache_get σ addr length p kind os regOk = (.ok r hit, σ') →
       r.invalid = false ∧ r.prot.contains p = true ∧ r.mem_kind = kind) ∧
    (∀ (σ : RState) (s e k : Nat), WF σ → k ∈ eventInvalidated σ s e →
     ∀ (ops : List ROp) (addr length : Nat) (p : Prot) (kind : MemKind)
       (os : Nat → Prot) (regOk : Bool) (r : Region) (hit : Bool) (σ' : RState),
       ucs_rcache_get (execOps (invalidateRange σ s e) ops)
         addr length p kind os regOk = (.ok r hit, σ') →
       r.rid ≠ k) := by
  constructor
  · intro σ addr length p kind os regOk r hit σ' hwf h
    obtain ⟨hlen, hcase⟩ := get_ok σ addr length p kind os regOk r hit σ' h
    rcases hcase with ⟨r0, hm, hcov, hp, hk, hr, -, -⟩ |
      ⟨ns, ne, np, hrec, -, hr, -, -, -⟩
    · obtain ⟨-, -, hfl, -, -, -, -⟩ := hwf
      have hpg : r0.in_pgtable = true := by
        have := List.mem_filter.mp hm
        simpa using this.2
      have hinv : r0.invalid = false := by
        have := hfl r0 (List.mem_of_mem_filter hm)
        rw [hpg] at this
        simpa using this
      subst hr
      exact ⟨hinv, hp, hk⟩
    · subst hr
      obtain ⟨-, -, -, hcp, -, -⟩ := reconcile_some σ _ _ p kind os ns ne np hrec
      exact ⟨rfl, hcp, rfl⟩
  · intro σ s e k hwf hk ops addr length p kind os regOk r hit σ' h
    obtain ⟨hd0, hklt⟩ := event_deadRid σ hwf s e k hk
    obtain ⟨hd1, hklt1⟩ := deadRid_execOps (invalidateRange σ s e) ops k hklt hd0
    obtain ⟨hlen, hcase⟩ := get_ok _ addr length p kind os regOk r hit σ' h
    rcases hcase with ⟨r0, hm, -, -, -, hr, -, -⟩ |
      ⟨ns, ne, np, -, -, hr, -, -, -⟩
    · subst hr
      intro hre
      have hpg : r0.in_pgtable = true := by
        have := List.mem_filter.mp hm
        simpa using this.2
      have := hd1 r0 (List.mem_of_mem_filter hm) hre
      rw [hpg] at this
      exact absurd this (by simp)
    · subst hr
      intro hre
      have h1 : (execOps (invalidateRange σ s e) ops).nextId = k := hre
      omega

/-- Witness for C1 at concrete inputs: a miss get on the empty cache
returns a fresh valid region, and after invalidating the single region of
exOne a get over the same range returns a region with a different
identity. -/
theorem c1_witness :
    ((⟨0, 0, 1, exProtRW, MemKind.host, 1, true, false⟩ : Region).invalid = false ∧
     (⟨0, 0, 1, exProtRW, MemKind.host, 1, true, false⟩ : Region).prot.contains
       exProtRW = true ∧
     (⟨0, 0, 1, exProtRW, MemKind.host, 1, true, false⟩ : Region).mem_kind =
       MemKind.host) ∧
    (⟨1, 0, 2, exProtRW, MemKind.host, 1, true, false⟩ : Region).rid ≠ 0 :=
  ⟨c1_get_never_returns_invalid.1 exEmpty 0 1 exProtRW .host exOsAll true
      ⟨0, 0, 1, exProtRW, MemKind.host, 1, true, false⟩ false
      ⟨1, [⟨0, 0, 1, exProtRW, MemKind.host, 1, true, false⟩], 1⟩
      (by decide) (by decide),
   c1_get_never_returns_invalid.2 exOne 0 2 0 (by decide) (by decide) [] 0 2
      exProtRW .host exOsAll true
      ⟨1, 0, 2, exProtRW, MemKind.host, 1, true, false⟩ false
      ⟨1, [⟨1, 0, 2, exProtRW, MemKind.host, 1, true, false⟩,
           ⟨0, 0, 2, ⟨true, true, false⟩, .host, 1, false, true⟩], 2⟩
      (by decide)⟩

theorem loop_notfound (l : List ucm_event_installer_t)
    (h : ∀ i ∈ l, installerNotFound i) :
    ucm_mem_attr_get_loop l false = (.UCS_OK, some mem_attr_host) := by
  induction l with
  | nil => rfl
  | cons i l ih =>
    have hi := h i (List.mem_cons_self i l)
    rcases hi with hnone | ⟨a, ha⟩
    · unfold ucm_mem_attr_get_loop
      rw [hnone]
      exact ih (fun j hj => h j (List.mem_cons_of_mem i hj))
    · unfold ucm_mem_attr_get_loop
      rw [ha]
      exact ih (fun j hj => h j (List.mem_cons_of_mem i hj))

theorem loop_status (l : List ucm_event_installer_t) (f : Bool) :
    (ucm_mem_attr_get_loop l f).1 = .UCS_OK ∨
      (ucm_mem_attr_get_loop l f).1 = .UCS_ERR_NO_RESOURCE := by
  induction l generalizing f with
  | nil =>
    unfold ucm_mem_attr_get_loop
    cases f with
    | false => exact Or.inl rfl
    | true => exact Or.inr rfl
  | cons i l ih =>
    unfold ucm_mem_attr_get_loop
    split
    · exact ih f
    · split
      · exact Or.inl rfl
      · split
        · exact ih true
        · exact ih f

/-- C8: when no installer recognizes the queried range (each either has no
get_mem_attr or reports invalid-address), ucm_mem_attr_get returns UCS_OK
with the host singleton; and the not-found status is never propagated: the
result status is never UCS_ERR_INVALID_ADDR. -/
theorem c8_notfound_becomes_host :
    (∀ installers : List ucm_event_installer_t,
       (∀ i ∈ installers, installerNotFound i) →
       ucm_mem_attr_get installers = (.UCS_OK, some mem_attr_host)) ∧
    (∀ installers : List ucm_event_installer_t,
       (ucm_mem_attr_get installers).1 ≠ .UCS_ERR_INVALID_ADDR) := by
  constructor
  · intro l h
    exact loop_notfound l h
  · intro l hc
    have hc2 : (ucm_mem_attr_get_loop l false).1 = .UCS_ERR_INVALID_ADDR := hc
    rcases loop_status l false with h | h <;> rw [hc2] at h <;>
      exact absurd h (by simp)

/-- Witness for C8 at a concrete installer list. -/
theorem c8_witness :
    ucm_mem_attr_get exInstallers = (.UCS_OK, some mem_attr_host) ∧
    (ucm_mem_attr_get exInstallers).1 ≠ .UCS_ERR_INVALID_ADDR :=
  ⟨c8_notfound_becomes_host.1 exInstallers (by decide),
   c8_notfound_becomes_host.2 exInstallers⟩

/-- C9: ucm_mem_attr_cmp returns 1 whenever the mem_type fields differ,
without consulting either per-instance cmp callback (the result does not
depend on the callback environment); when the types agree the result is
that of the first descriptor's per-instance cmp; any two host descriptors
compare equal. -/
theorem c9_cmp_dispatch :
    (∀ (env : CmpEnv) (a1 a2 : ucm_mem_attr_t),
       a1.mem_type ≠ a2.mem_type → ucm_mem_attr_cmp env a1 a2 = 1) ∧
    (∀ (env : CmpEnv) (a1 a2 : ucm_mem_attr_t),
       a1.mem_type = a2.mem_type →
       ucm_mem_attr_cmp env a1 a2 = runCmpCallback env a1.cmp a1 a2) ∧
    (∀ env : CmpEnv, ucm_mem_attr_cmp env mem_attr_host mem_attr_host = 0) := by
  refine ⟨?_, ?_, ?_⟩
  · intro env a1 a2 h
    have hcond : ucm_mem_attr_cmp_type a1 a2 ≠ 0 := by
      unfold ucm_mem_attr_cmp_type
      rw [if_neg h]
      norm_num
    unfold ucm_mem_attr_cmp
    rw [if_pos hcond]
  · intro env a1 a2 h
    have hcond : ¬ (ucm_mem_attr_cmp_type a1 a2 ≠ 0) := by
      unfold ucm_mem_attr_cmp_type
      rw [if_pos h]
      norm_num
    unfold ucm_mem_attr_cmp
    rw [if_neg hcond]
  · intro env
    have hcond : ¬ (ucm_mem_attr_cmp_type mem_attr_host mem_attr_host ≠ 0) := by
      simp [ucm_mem_attr_cmp_type]
    unfold ucm_mem_attr_cmp
    rw [if_neg hcond]
    rfl

/-- Witness for C9 at concrete descriptors. -/
theorem c9_witness :
    ucm_mem_attr_cmp exEnv mem_attr_host exDevAttr = 1 ∧
    ucm_mem_attr_cmp exEnv exDevAttr exDevAttr =
      runCmpCallback exEnv exDevAttr.cmp exDevAttr exDevAttr ∧
    ucm_mem_attr_cmp exEnv mem_attr_host mem_attr_host = 0 :=
  ⟨c9_cmp_dispatch.1 exEnv mem_attr_host exDevAttr (by decide),
   c9_cmp_dispatch.2.1 exEnv exDevAttr exDevAttr rfl,
   c9_cmp_dispatch.2.2 exEnv⟩

/-- C10: ucm_mem_attr_destroy is total: destroying a NULL descriptor is a
no-op, destroying the static host singleton any number of times invokes no
installer destroy callback, and the singleton remains a valid host
descriptor afterwards. -/
theorem c10_destroy_total :
    ucm_mem_attr_destroy none = [] ∧
    (∀ n, destroyNTimes mem_attr_host n = []) ∧
    ucm_mem_attr_get_type mem_attr_host = .UCS_MEMORY_TYPE_HOST := by
  refine ⟨rfl, ?_, rfl⟩
  intro n
  induction n with
  | zero => rfl
  | succ n ih =>
    unfold destroyNTimes
    rw [ih]
    rfl

theorem reconcile_shrink (σ : RState) (s e : Nat) (p : Prot) (kind : MemKind)
    (os : Nat → Prot) (ns ne : Nat) (np : Prot)
    (h : reconcile σ s e p kind os = some (ns, ne, np))
    (hfail : osCheck os (hullStart σ s e kind) (hullEnd σ s e kind)
      (candProt σ s e p kind) = false) :
    np = p ∧ (osCheck os (domStart σ s e p kind) (domEnd σ s e p kind) p = false →
      ns = s ∧ ne = e) := by
  unfold reconcile at h
  split at h
  · rename_i hos
    rw [hos] at hfail
    exact absurd hfail (by simp)
  · split at h
    · exact absurd h (by simp)
    · split at h
      · rename_i hdom
        simp only [Option.some.injEq, Prod.mk.injEq] at h
        obtain ⟨h1, h2, h3⟩ := h
        refine ⟨h3.symm, ?_⟩
        intro hdf
        rw [hdom] at hdf
        exact absurd hdf (by simp)
      · simp only [Option.some.injEq, Prod.mk.injEq] at h
        obtain ⟨h1, h2, h3⟩ := h
        exact ⟨h3.symm, fun _ => ⟨h1.symm, h2.symm⟩⟩

/-- C4: on the slow path the candidate merged prot (union of the request's
prot with the prots of the overlapping regions) is accepted only if the
OS-reported protection of every page of the merged interval dominates it;
otherwise the prot shrinks back to the request's prot alone (and, when not
even the dominated regions can be absorbed, the interval shrinks to the
normalized request); in every case the returned region's prot is dominated
by the OS protection of every page of its interval. -/
theorem c4_merge_never_widens_past_os :
    ∀ (σ : RState) (addr length : Nat) (p : Prot) (kind : MemKind)
      (os : Nat → Prot) (regOk : Bool) (r : Region) (σ' : RState),
      ucs_rcache_get σ addr length p kind os regOk = (.ok r false, σ') →
      osCheck os r.start r.rend r.prot = true ∧
      r.prot.contains p = true ∧
      (r.prot = candProt σ (alignDown addr σ.alignment)
         (alignUp (addr + length) σ.alignment) p kind ∨ r.prot = p) ∧
      (osCheck os
          (hullStart σ (alignDown addr σ.alignment)
            (alignUp (addr + length) σ.alignment) kind)
          (hullEnd σ (alignDown addr σ.alignment)
            (alignUp (addr + length) σ.alignment) kind)
          (candProt σ (alignDown addr σ.alignment)
            (alignUp (addr + length) σ.alignment) p kind) = false →
        r.prot = p ∧
        (osCheck os
            (domStart σ (alignDown addr σ.alignment)
              (alignUp (addr + length) σ.alignment) p kind)
            (domEnd σ (alignDown addr σ.alignment)
              (alignUp (addr + length) σ.alignment) p kind) p = false →
          r.start = alignDown addr σ.alignment ∧
          r.rend = alignUp (addr + length) σ.alignment)) := by
  intro σ addr length p kind os regOk r σ' h
  obtain ⟨hlen, hcase⟩ := get_ok σ addr length p kind os regOk r false σ' h
  rcases hcase with ⟨r0, -, -, -, -, -, hhit, -⟩ |
    ⟨ns, ne, np, hrec, -, hr, -, -, -⟩
  · exact absurd hhit.symm (by simp)
  · obtain ⟨hns, hne, hosk, hcp, hnpo, -⟩ :=
      reconcile_some σ _ _ p kind os ns ne np hrec
    subst hr
    refine ⟨hosk, hcp, hnpo, ?_⟩
    intro hfail
    obtain ⟨hp, hiv⟩ := reconcile_shrink σ _ _ p kind os ns ne np hrec hfail
    exact ⟨hp, hiv⟩

/-- Witness for C4 at a concrete input: merging a read-only request over
[2, 4) with the resident read-write region of exOneIdle is refused by the
OS check (addresses below 2 are read-only), and the returned region keeps
the request's prot and interval. -/
theorem c4_witness :
    osCheck exOsSplit (⟨1, 2, 6, exProtR, MemKind.host, 1, true, false⟩ : Region).start
      (⟨1, 2, 6, exProtR, MemKind.host, 1, true, false⟩ : Region).rend
      (⟨1, 2, 6, exProtR, MemKind.host, 1, true, false⟩ : Region).prot = true ∧
    (⟨1, 2, 6, exProtR, MemKind.host, 1, true, false⟩ : Region).prot.contains
      exProtR = true ∧
    ((⟨1, 2, 6, exProtR, MemKind.host, 1, true, false⟩ : Region).prot =
       candProt exOneIdle (alignDown 2 exOneIdle.alignment)
         (alignUp (2 + 4) exOneIdle.alignment) exProtR MemKind.host ∨
     (⟨1, 2, 6, exProtR, MemKind.host, 1, true, false⟩ : Region).prot = exProtR) ∧
    (osCheck exOsSplit
        (hullStart exOneIdle (alignDown 2 exOneIdle.alignment)
          (alignUp (2 + 4) exOneIdle.alignment) MemKind.host)
        (hullEnd exOneIdle (alignDown 2 exOneIdle.alignment)
          (alignUp (2 + 4) exOneIdle.alignment) MemKind.host)
        (candProt exOneIdle (alignDown 2 exOneIdle.alignment)
          (alignUp (2 + 4) exOneIdle.alignment) exProtR MemKind.host) = false →
      (⟨1, 2, 6, exProtR, MemKind.host, 1, true, false⟩ : Region).prot = exProtR ∧
      (osCheck exOsSplit
          (domStart exOneIdle (alignDown 2 exOneIdle.alignment)
            (alignUp (2 + 4) exOneIdle.alignment) exProtR MemKind.host)
          (domEnd exOneIdle (alignDown 2 exOneIdle.alignment)
            (alignUp (2 + 4) exOneIdle.alignment) exProtR MemKind.host)
          exProtR = false →
        (⟨1, 2, 6, exProtR, MemKind.host, 1, true, false⟩ : Region).start =
          alignDown 2 exOneIdle.alignment ∧
        (⟨1, 2, 6, exProtR, MemKind.host, 1, true, false⟩ : Region).rend =
          alignUp (2 + 4) exOneIdle.alignment)) :=
  c4_merge_never_widens_past_os exOneIdle 2 4 exProtR .host exOsSplit true
    ⟨1, 2, 6, exProtR, MemKind.host, 1, true, false⟩
    ⟨1, [⟨1, 2, 6, exProtR, MemKind.host, 1, true, false⟩], 2⟩ (by decide)

theorem refcountOf_eq (σ : RState) (hwf : WF σ) (r : Region) (hm : r ∈ σ.regions) :
    refcountOf σ r.rid = r.refcount := by
  unfold refcountOf
  cases hf : σ.regions.find? (fun x => x.rid == r.rid) with
  | none =>
    rw [List.find?_eq_none] at hf
    exact absurd (by simp) (hf r hm)
  | some x =>
    have hx1 := List.find?_some hf
    have hx2 := List.mem_of_find?_eq_some hf
    rw [rid_inj σ hwf x r hx2 hm (by simpa using hx1)]

theorem mem_bumpRef (σ : RState) (r0 : Region) (hm : r0 ∈ σ.regions) :
    { r0 with refcount := r0.refcount + 1 } ∈ (bumpRef σ r0.rid).regions := by
  unfold bumpRef
  rw [List.mem_filterMap]
  refine ⟨r0, hm, ?_⟩
  unfold bumpf
  rw [if_pos rfl]

theorem mem_put_kept (σ : RState) (r : Region) (hm : r ∈ σ.regions)
    (hinv : r.invalid = false) :
    { r with refcount := r.refcount - 1 } ∈ (ucs_rcache_region_put σ r.rid).regions := by
  unfold ucs_rcache_region_put
  rw [List.mem_filterMap]
  refine ⟨r, hm, ?_⟩
  unfold putf
  rw [if_pos rfl, if_neg ?_]
  intro hc
  rw [hinv] at hc
  exact absurd hc.1 (by simp)

theorem get_of_fastLookup (σ : RState) (addr length : Nat) (p : Prot)
    (kind : MemKind) (os : Nat → Prot) (regOk : Bool) (r0 : Region)
    (hlen : length ≠ 0)
    (hfl : fastLookup σ (alignDown addr σ.alignment)
      (alignUp (addr + length) σ.alignment) p kind = some r0) :
    ucs_rcache_get σ addr length p kind os regOk =
      (.ok { r0 with refcount := r0.refcount + 1 } true, bumpRef σ r0.rid) := by
  unfold ucs_rcache_get
  rw [if_neg hlen, hfl]

theorem get_ok_mem (σ : RState) (addr length : Nat) (p : Prot) (kind : MemKind)
    (os : Nat → Prot) (regOk : Bool) (r : Region) (hit : Bool) (σ1 : RState)
    (_hwf : WF σ)
    (h : ucs_rcache_get σ addr length p kind os regOk = (.ok r hit, σ1)) :
    r ∈ σ1.regions ∧ r.in_pgtable = true ∧
    r.coversI (alignDown addr σ.alignment)
      (alignUp (addr + length) σ.alignment) = true ∧
    r.prot.contains p = true ∧ r.mem_kind = kind ∧ 1 ≤ r.refcount ∧
    σ1.alignment = σ.alignment ∧ length ≠ 0 := by
  obtain ⟨hlen, hcase⟩ := get_ok σ addr length p kind os regOk r hit σ1 h
  rcases hcase with ⟨r0, hm, hcov, hp, hk, hr, -, hσ⟩ |
    ⟨ns, ne, np, hrec, -, hr, -, -, hσ⟩
  · have hpg : r0.in_pgtable = true := by
      have := List.mem_filter.mp hm
      simpa using this.2
    have hmem : r ∈ σ1.regions := by
      rw [hσ, hr]
      exact mem_bumpRef σ r0 (List.mem_of_mem_filter hm)
    subst hr
    refine ⟨hmem, hpg, hcov, hp, hk, by show 1 ≤ r0.refcount + 1; omega, ?_, hlen⟩
    rw [hσ]
    rfl
  · obtain ⟨hns, hne, -, hcp, -, -⟩ := reconcile_some σ _ _ p kind os ns ne np hrec
    have hmem : r ∈ σ1.regions := by
      rw [hσ, hr]
      exact List.mem_cons_self _ _
    subst hr
    refine ⟨hmem, rfl, ?_, hcp, rfl, Nat.le_refl 1, ?_, hlen⟩
    · rw [coversI_true_iff]
      exact ⟨hns, hne⟩
    · rw [hσ]

/-- C7: on a host range, a get followed by a put leaves the region alive
in the page table; repeating the same get is a fast hit returning the same
region identity, whose refcount the paired put restores. -/
theorem c7_host_get_put_repeat :
    ∀ (σ : RState) (addr length : Nat) (p : Prot) (os os2 : Nat → Prot)
      (regOk regOk2 : Bool) (r : Region) (hit : Bool) (σ1 : RState),
      WF σ →
      ucs_rcache_get σ addr length p .host os regOk = (.ok r hit, σ1) →
      ∃ r2 σ3,
        ucs_rcache_get (ucs_rcache_region_put σ1 r.rid) addr length p .host
          os2 regOk2 = (.ok r2 true, σ3) ∧
        r2.rid = r.rid ∧
        refcountOf (ucs_rcache_region_put σ1 r.rid) r.rid + 1 =
          refcountOf σ1 r.rid ∧
        refcountOf σ3 r.rid = refcountOf σ1 r.rid ∧
        refcountOf (ucs_rcache_region_put σ3 r2.rid) r2.rid =
          refcountOf (ucs_rcache_region_put σ1 r.rid) r.rid := by
  intro σ addr length p os os2 regOk regOk2 r hit σ1 hwf h
  obtain ⟨hmem1, hpg1, hcov1, hp1, hk1, hrc1, hal1, hlen⟩ :=
    get_ok_mem σ addr length p .host os regOk r hit σ1 hwf h
  have hwf1 : WF σ1 := by
    have := WF_get σ addr length p .host os regOk hwf
    rw [h] at this
    exact this
  have hinv1 : r.invalid = false := by
    obtain ⟨-, -, hfl, -, -, -, -⟩ := hwf1
    have := hfl r hmem1
    rw [hpg1] at this
    simpa using this
  have hwf2 : WF (ucs_rcache_region_put σ1 r.rid) := WF_put σ1 r.rid hwf1
  have hal2 : (ucs_rcache_region_put σ1 r.rid).alignment = σ.alignment := hal1
  have hmem2 : { r with refcount := r.refcount - 1 } ∈
      (ucs_rcache_region_put σ1 r.rid).regions :=
    mem_put_kept σ1 r hmem1 hinv1
  have hse : alignDown addr σ.alignment < alignUp (addr + length) σ.alignment :=
    norm_lt addr length σ.alignment hwf.1 hlen
  have hfl2 : fastLookup (ucs_rcache_region_put σ1 r.rid)
      (alignDown addr (ucs_rcache_region_put σ1 r.rid).alignment)
      (alignUp (addr + length) (ucs_rcache_region_put σ1 r.rid).alignment)
      p .host = some { r with refcount := r.refcount - 1 } := by
    rw [hal2]
    refine fastLookup_eq_some_of_covering _ hwf2 _ _ hse p .host _ ?_ hcov1 hp1 hk1
    unfold pgtable
    rw [List.mem_filter]
    exact ⟨hmem2, by simpa using hpg1⟩
  have hget2 := get_of_fastLookup (ucs_rcache_region_put σ1 r.rid) addr length p
    .host os2 regOk2 { r with refcount := r.refcount - 1 } hlen hfl2
  refine ⟨{ r with refcount := r.refcount - 1 + 1 }, _, hget2, rfl, ?_, ?_, ?_⟩
  · have e1 : refcountOf σ1 r.rid = r.refcount := refcountOf_eq σ1 hwf1 r hmem1
    have e2 : refcountOf (ucs_rcache_region_put σ1 r.rid) r.rid = r.refcount - 1 :=
      refcountOf_eq _ hwf2 _ hmem2
    omega
  · have e1 : refcountOf σ1 r.rid = r.refcount := refcountOf_eq σ1 hwf1 r hmem1
    have e3 : refcountOf (bumpRef (ucs_rcache_region_put σ1 r.rid)
        { r with refcount := r.refcount - 1 }.rid) r.rid = r.refcount - 1 + 1 := by
      have hwf3 : WF (bumpRef (ucs_rcache_region_put σ1 r.rid)
          { r with refcount := r.refcount - 1 }.rid) :=
        WF_bump _ _ hwf2
      have hm3 := mem_bumpRef (ucs_rcache_region_put σ1 r.rid)
        { r with refcount := r.refcount - 1 } hmem2
      exact refcountOf_eq _ hwf3 _ hm3
    rw [e3, e1]
    omega
  · have hwf3 : WF (bumpRef (ucs_rcache_region_put σ1 r.rid)
        { r with refcount := r.refcount - 1 }.rid) :=
      WF_bump _ _ hwf2
    have hm3 := mem_bumpRef (ucs_rcache_region_put σ1 r.rid)
      { r with refcount := r.refcount - 1 } hmem2
    have hinv3 : ({ r with refcount := r.refcount - 1 + 1 } : Region).invalid
        = false := hinv1
    have hm4 := mem_put_kept _ { r with refcount := r.refcount - 1 + 1 } hm3 hinv3
    have hwf4 : WF (ucs_rcache_region_put (bumpRef (ucs_rcache_region_put σ1 r.rid)
        { r with refcount := r.refcount - 1 }.rid)
        ({ r with refcount := r.refcount - 1 + 1 } : Region).rid) :=
      WF_put _ _ hwf3
    have e4 := refcountOf_eq _ hwf4 _ hm4
    have e2 : refcountOf (ucs_rcache_region_put σ1 r.rid) r.rid = r.refcount - 1 :=
      refcountOf_eq _ hwf2 _ hmem2
    rw [e2]
    exact e4

/-- Witness for C7: a miss get over [0, 2) of the empty cache followed by
put and a repeated get. -/
theorem c7_witness :
    ∃ r2 σ3,
      ucs_rcache_get (ucs_rcache_region_put exAfterGet exRegion02.rid) 0 2
        exProtRW .host exOsAll true = (.ok r2 true, σ3) ∧
      r2.rid = exRegion02.rid ∧
      refcountOf (ucs_rcache_region_put exAfterGet exRegion02.rid)
          exRegion02.rid + 1 = refcountOf exAfterGet exRegion02.rid ∧
      refcountOf σ3 exRegion02.rid = refcountOf exAfterGet exRegion02.rid ∧
      refcountOf (ucs_rcache_region_put σ3 r2.rid) r2.rid =
        refcountOf (ucs_rcache_region_put exAfterGet exRegion02.rid)
          exRegion02.rid :=
  c7_host_get_put_repeat exEmpty 0 2 exProtRW exOsAll exOsAll true true
    exRegion02 false exAfterGet (by decide) (by decide)

theorem reconcile_full (σ : RState) (s e : Nat) (p : Prot) (kind : MemKind)
    (os : Nat → Prot)
    (hos : osCheck os (hullStart σ s e kind) (hullEnd σ s e kind)
      (candProt σ s e p kind) = true) :
    reconcile σ s e p kind os =
      some (hullStart σ s e kind, hullEnd σ s e kind, candProt σ s e p kind) := by
  unfold reconcile
  rw [if_pos hos]

/-- C5: when a get request is reconciled by a full merge (the OS check
accepts the candidate), the new region's interval is the union of the
normalized request with the interval of every overlapping same-kind
region; every absorbed region becomes INVALID; and any subsequent get
whose normalized request lies inside the merged interval (with dominated
prot and the same kind) is a fast hit on the merged region. -/
theorem c5_merge_interval_union :
    ∀ (σ : RState) (addr length s e : Nat) (p : Prot) (kind : MemKind)
      (os : Nat → Prot),
      WF σ → length ≠ 0 →
      s = alignDown addr σ.alignment →
      e = alignUp (addr + length) σ.alignment →
      fastLookup σ s e p kind = none →
      osCheck os (hullStart σ s e kind) (hullEnd σ s e kind)
        (candProt σ s e p kind) = true →
      ∃ σ' : RState,
        ucs_rcache_get σ addr length p kind os true =
          (.ok ⟨σ.nextId, hullStart σ s e kind, hullEnd σ s e kind,
            candProt σ s e p kind, kind, 1, true, false⟩ false, σ') ∧
        (∀ r' ∈ sameKindList σ s e kind,
          ∀ q ∈ σ'.regions, q.rid = r'.rid → q.invalid = true) ∧
        (∀ (addr2 len2 : Nat) (p2 : Prot) (os2 : Nat → Prot) (rok2 : Bool),
          len2 ≠ 0 →
          hullStart σ s e kind ≤ alignDown addr2 σ.alignment →
          alignUp (addr2 + len2) σ.alignment ≤ hullEnd σ s e kind →
          (candProt σ s e p kind).contains p2 = true →
          ∃ r2 σ2, ucs_rcache_get σ' addr2 len2 p2 kind os2 rok2 =
            (.ok r2 true, σ2) ∧ r2.rid = σ.nextId) := by
  intro σ addr length s e p kind os hwf hlen hs he hnone hos
  subst hs
  subst he
  have hrec := reconcile_full σ (alignDown addr σ.alignment)
    (alignUp (addr + length) σ.alignment) p kind os hos
  have hse : alignDown addr σ.alignment < alignUp (addr + length) σ.alignment :=
    norm_lt addr length σ.alignment hwf.1 hlen
  refine ⟨{ alignment := σ.alignment
            regions := (⟨σ.nextId,
              hullStart σ (alignDown addr σ.alignment)
                (alignUp (addr + length) σ.alignment) kind,
              hullEnd σ (alignDown addr σ.alignment)
                (alignUp (addr + length) σ.alignment) kind,
              candProt σ (alignDown addr σ.alignment)
                (alignUp (addr + length) σ.alignment) p kind,
              kind, 1, true, false⟩ : Region) ::
              (invalidateRange σ (alignDown addr σ.alignment)
                (alignUp (addr + length) σ.alignment)).regions
            nextId := σ.nextId + 1 }, ?_, ?_, ?_⟩
  · unfold ucs_rcache_get
    rw [if_neg hlen, hnone]
    unfold slowPath
    rw [hrec]
    rfl
  · intro r' hr' q hq hrid
    have hr'mem : r' ∈ σ.regions :=
      List.mem_of_mem_filter (mem_sameKindList σ _ _ kind r' hr').1
    rcases List.mem_cons.mp hq with hqe | hq
    · exfalso
      obtain ⟨-, -, -, -, hlt, -, -⟩ := hwf
      have h2 := hlt r' hr'mem
      have h3 : σ.nextId = r'.rid := by rw [← hrid, hqe]
      omega
    · obtain ⟨r0, hr0m, hf⟩ := List.mem_filterMap.mp hq
      rcases invOne_some_cases _ _ r0 q hf with ⟨hqe, hcond⟩ |
        ⟨-, -, -, -, -, -, -, hinv, -⟩
      · exfalso
        subst hqe
        have hqr : q = r' := rid_inj σ hwf q r' hr0m hr'mem hrid
        apply hcond
        have hsk := mem_sameKindList σ _ _ kind r' hr'
        have hpg : r'.in_pgtable = true := by
          have := List.mem_filter.mp hsk.1
          simpa using this.2
        rw [hqr]
        exact ⟨hpg, hsk.2.1⟩
      · exact hinv
  · intro addr2 len2 p2 os2 rok2 hlen2 hlo hhi hp2
    have hwf' := WF_slow_insert σ (alignDown addr σ.alignment)
      (alignUp (addr + length) σ.alignment) p kind os _ _ _ hwf hse hrec
    have hse2 : alignDown addr2 σ.alignment < alignUp (addr2 + len2) σ.alignment :=
      norm_lt addr2 len2 σ.alignment hwf.1 hlen2
    have hfl2 := fastLookup_eq_some_of_covering _ hwf' (alignDown addr2 σ.alignment)
      (alignUp (addr2 + len2) σ.alignment) hse2 p2 kind
      ⟨σ.nextId,
        hullStart σ (alignDown addr σ.alignment)
          (alignUp (addr + length) σ.alignment) kind,
        hullEnd σ (alignDown addr σ.alignment)
          (alignUp (addr + length) σ.alignment) kind,
        candProt σ (alignDown addr σ.alignment)
          (alignUp (addr + length) σ.alignment) p kind,
        kind, 1, true, false⟩ ?_ ?_ hp2 rfl
    · have hget2 := get_of_fastLookup _ addr2 len2 p2 kind os2 rok2 _ hlen2 hfl2
      exact ⟨_, _, hget2, rfl⟩
    · unfold pgtable
      rw [List.mem_filter]
      exact ⟨List.mem_cons_self _ _, by simp⟩
    · rw [coversI_true_iff]
      exact ⟨hlo, hhi⟩

/-- Witness for C5: merging the two regions of exTwo with a request over
[1, 4) produces the region [0, 5). -/
theorem c5_witness :
    ∃ σ' : RState,
      ucs_rcache_get exTwo 1 3 exProtRW .host exOsAll true =
        (.ok ⟨exTwo.nextId, hullStart exTwo 1 4 .host, hullEnd exTwo 1 4 .host,
          candProt exTwo 1 4 exProtRW .host, .host, 1, true, false⟩ false, σ') ∧
      (∀ r' ∈ sameKindList exTwo 1 4 .host,
        ∀ q ∈ σ'.regions, q.rid = r'.rid → q.invalid = true) ∧
      (∀ (addr2 len2 : Nat) (p2 : Prot) (os2 : Nat → Prot) (rok2 : Bool),
        len2 ≠ 0 →
        hullStart exTwo 1 4 .host ≤ alignDown addr2 exTwo.alignment →
        alignUp (addr2 + len2) exTwo.alignment ≤ hullEnd exTwo 1 4 .host →
        (candProt exTwo 1 4 exProtRW .host).contains p2 = true →
        ∃ r2 σ2, ucs_rcache_get σ' addr2 len2 p2 .host os2 rok2 =
          (.ok r2 true, σ2) ∧ r2.rid = exTwo.nextId) :=
  c5_merge_interval_union exTwo 1 3 1 4 exProtRW .host exOsAll (by decide)
    (by decide) (by decide) (by decide) (by decide) (by decide)

theorem osCheck_of_sup (os : Nat → Prot) (s e : Nat) (prt : Prot)
    (hsup : ∀ a, (os a).contains prt = true) : osCheck os s e prt = true := by
  unfold osCheck
  rw [List.all_eq_true]
  intro i hi
  exact hsup _

theorem fastLookup_none_of_kind (σ : RState) (s e : Nat) (prt : Prot)
    (kind : MemKind) (h : ∀ r ∈ pgtable σ, r.mem_kind ≠ kind) :
    fastLookup σ s e prt kind = none := by
  unfold fastLookup
  rw [List.find?_eq_none]
  intro x hx
  simp only [Bool.and_eq_true, beq_iff_eq]
  intro hc
  exact h x hx hc.2

theorem sameKindList_nil_of_kind (σ : RState) (s e : Nat) (kind : MemKind)
    (h : ∀ r ∈ pgtable σ, r.mem_kind ≠ kind) :
    sameKindList σ s e kind = [] := by
  unfold sameKindList
  rw [List.filter_eq_nil_iff]
  intro a ha
  have hap : a ∈ pgtable σ := by
    unfold overlapList at ha
    exact List.mem_of_mem_filter ha
  intro hc
  exact h a hap (by simpa using hc)

theorem mem_kind_orig_put (σ : RState) (rid : Nat) (q : Region)
    (hq : q ∈ (ucs_rcache_region_put σ rid).regions) :
    ∃ r ∈ σ.regions, q.mem_kind = r.mem_kind := by
  obtain ⟨r, hrm, hf⟩ := List.mem_filterMap.mp hq
  rcases putf_some_cases rid r q hf with ⟨he, -⟩ | ⟨-, -, he⟩
  · exact ⟨r, hrm, by rw [he]⟩
  · exact ⟨r, hrm, by rw [he]⟩

theorem mem_kind_orig_inv (σ : RState) (s e : Nat) (q : Region)
    (hq : q ∈ (invalidateRange σ s e).regions) :
    ∃ r ∈ σ.regions, q.mem_kind = r.mem_kind := by
  obtain ⟨r, hrm, hf⟩ := List.mem_filterMap.mp hq
  exact ⟨r, hrm, (invOne_some_fields s e r q hf).2.2.2.2.1⟩

theorem deviceCycle_step (A L : Nat) (prt : Prot) (fam : Nat) (os : Nat → Prot)
    (σ : RState) (i : Nat) (_hal : 1 ≤ σ.alignment) (hL : L ≠ 0)
    (hsup : ∀ a, (os a).contains prt = true)
    (hP : ∀ r ∈ σ.regions, ∀ j, i ≤ j → r.mem_kind ≠ MemKind.device fam j) :
    ∃ σ3, deviceCycle A L prt fam os σ i = (some σ.nextId, σ3) ∧
      σ3.nextId = σ.nextId + 1 ∧ σ3.alignment = σ.alignment ∧
      (∀ r ∈ σ3.regions, ∀ j, i + 1 ≤ j → r.mem_kind ≠ MemKind.device fam j) := by
  have hkind : ∀ r ∈ pgtable σ, r.mem_kind ≠ MemKind.device fam i :=
    fun r hr => hP r (List.mem_of_mem_filter hr) i (Nat.le_refl i)
  have hnone := fastLookup_none_of_kind σ (alignDown A σ.alignment)
    (alignUp (A + L) σ.alignment) prt (.device fam i) hkind
  have hnil := sameKindList_nil_of_kind σ (alignDown A σ.alignment)
    (alignUp (A + L) σ.alignment) (.device fam i) hkind
  have hcand : candProt σ (alignDown A σ.alignment) (alignUp (A + L) σ.alignment)
      prt (.device fam i) = prt := by
    unfold candProt
    rw [hnil]
    rfl
  have hhs : hullStart σ (alignDown A σ.alignment) (alignUp (A + L) σ.alignment)
      (.device fam i) = alignDown A σ.alignment := by
    unfold hullStart
    rw [hnil]
    rfl
  have hhe : hullEnd σ (alignDown A σ.alignment) (alignUp (A + L) σ.alignment)
      (.device fam i) = alignUp (A + L) σ.alignment := by
    unfold hullEnd
    rw [hnil]
    rfl
  have hos : osCheck os
      (hullStart σ (alignDown A σ.alignment) (alignUp (A + L) σ.alignment)
        (.device fam i))
      (hullEnd σ (alignDown A σ.alignment) (alignUp (A + L) σ.alignment)
        (.device fam i))
      (candProt σ (alignDown A σ.alignment) (alignUp (A + L) σ.alignment) prt
        (.device fam i)) = true := by
    rw [hhs, hhe, hcand]
    exact osCheck_of_sup os _ _ prt hsup
  have hrec := reconcile_full σ (alignDown A σ.alignment)
    (alignUp (A + L) σ.alignment) prt (.device fam i) os hos
  have hget : ucs_rcache_get σ A L prt (.device fam i) os true =
      (.ok ⟨σ.nextId,
        hullStart σ (alignDown A σ.alignment) (alignUp (A + L) σ.alignment)
          (.device fam i),
        hullEnd σ (alignDown A σ.alignment) (alignUp (A + L) σ.alignment)
          (.device fam i),
        candProt σ (alignDown A σ.alignment) (alignUp (A + L) σ.alignment) prt
          (.device fam i),
        .device fam i, 1, true, false⟩ false,
       { alignment := σ.alignment
         regions := (⟨σ.nextId,
           hullStart σ (alignDown A σ.alignment) (alignUp (A + L) σ.alignment)
             (.device fam i),
           hullEnd σ (alignDown A σ.alignment) (alignUp (A + L) σ.alignment)
             (.device fam i),
           candProt σ (alignDown A σ.alignment) (alignUp (A + L) σ.alignment) prt
             (.device fam i),
           .device fam i, 1, true, false⟩ : Region) ::
           (invalidateRange σ (alignDown A σ.alignment)
             (alignUp (A + L) σ.alignment)).regions
         nextId := σ.nextId + 1 }) := by
    unfold ucs_rcache_get
    rw [if_neg hL, hnone]
    unfold slowPath
    rw [hrec]
    rfl
  refine ⟨ucs_rcache_invalidate_range (ucs_rcache_region_put
      { alignment := σ.alignment
        regions := (⟨σ.nextId,
          hullStart σ (alignDown A σ.alignment) (alignUp (A + L) σ.alignment)
            (.device fam i),
          hullEnd σ (alignDown A σ.alignment) (alignUp (A + L) σ.alignment)
            (.device fam i),
          candProt σ (alignDown A σ.alignment) (alignUp (A + L) σ.alignment) prt
            (.device fam i),
          .device fam i, 1, true, false⟩ : Region) ::
          (invalidateRange σ (alignDown A σ.alignment)
            (alignUp (A + L) σ.alignment)).regions
        nextId := σ.nextId + 1 } σ.nextId) A L, ?_, rfl, rfl, ?_⟩
  · unfold deviceCycle
    rw [hget]
  · intro q hq j hij
    obtain ⟨q1, hq1m, hk1⟩ := mem_kind_orig_inv _ A (A + L) q hq
    obtain ⟨q0, hq0m, hk0⟩ := mem_kind_orig_put _ _ q1 hq1m
    rcases List.mem_cons.mp hq0m with he | hq0m
    · rw [hk1, hk0, he]
      intro hc
      have hcc : MemKind.device fam i = MemKind.device fam j := hc
      simp only [MemKind.device.injEq] at hcc
      omega
    · obtain ⟨q2, hq2m, hk2⟩ := mem_kind_orig_inv σ _ _ q0 hq0m
      rw [hk1, hk0, hk2]
      exact hP q2 hq2m j (by omega)

theorem deviceCycles_spec (A L : Nat) (prt : Prot) (fam : Nat)
    (os : Nat → Prot) :
    ∀ (n : Nat) (σ : RState) (i : Nat), 1 ≤ σ.alignment → L ≠ 0 →
      (∀ a, (os a).contains prt = true) →
      (∀ r ∈ σ.regions, ∀ j, i ≤ j → r.mem_kind ≠ MemKind.device fam j) →
      (deviceCycles A L prt fam os σ i n).1.length = n ∧
      (∀ x ∈ (deviceCycles A L prt fam os σ i n).1, σ.nextId ≤ x) ∧
      List.Pairwise (· < ·) (deviceCycles A L prt fam os σ i n).1 := by
  intro n
  induction n with
  | zero =>
    intro σ i _ _ _ _
    exact ⟨rfl, by intro x hx; exact absurd hx (by simp [deviceCycles]),
      List.Pairwise.nil⟩
  | succ n ih =>
    intro σ i hal hL hsup hP
    obtain ⟨σ3, hcyc, hnid, halg, hP3⟩ :=
      deviceCycle_step A L prt fam os σ i hal hL hsup hP
    have heq : deviceCycles A L prt fam os σ i (n + 1) =
        (σ.nextId :: (deviceCycles A L prt fam os σ3 (i + 1) n).1,
         (deviceCycles A L prt fam os σ3 (i + 1) n).2) := by
      conv_lhs => unfold deviceCycles
      rw [hcyc]
    obtain ⟨hlen, hge, hpair⟩ := ih σ3 (i + 1) (by rw [halg]; exact hal) hL hsup hP3
    refine ⟨?_, ?_, ?_⟩
    · rw [heq]
      show (deviceCycles A L prt fam os σ3 (i + 1) n).1.length + 1 = n + 1
      omega
    · intro x hx
      rw [heq] at hx
      rcases List.mem_cons.mp hx with he | hx
      · omega
      · have h1 := hge x hx
        omega
    · rw [heq]
      refine List.pairwise_cons.mpr ⟨?_, hpair⟩
      intro b hb
      have h1 := hge b hb
      omega

/-- C6: device classification yields a per-allocation descriptor, so a get
on a freshly allocated device range always misses even at the same virtual
address: n allocate/get/put/free cycles on a device range return n regions
with pairwise distinct identities. -/
theorem c6_device_cycles_distinct :
    ∀ (A L : Nat) (prt : Prot) (fam : Nat) (os : Nat → Prot) (σ : RState)
      (n : Nat),
      1 ≤ σ.alignment → L ≠ 0 → (∀ a, (os a).contains prt = true) →
      (∀ r ∈ σ.regions, ∀ j, r.mem_kind ≠ MemKind.device fam j) →
      (deviceCycles A L prt fam os σ 0 n).1.length = n ∧
      List.Pairwise (fun a b => a ≠ b) (deviceCycles A L prt fam os σ 0 n).1 := by
  intro A L prt fam os σ n hal hL hsup hP
  obtain ⟨h1, -, h3⟩ := deviceCycles_spec A L prt fam os n σ 0 hal hL hsup
    (fun r hr j _ => hP r hr j)
  exact ⟨h1, h3.imp Nat.ne_of_lt⟩

/-- Witness for C6: three device cycles on the empty cache return three
pairwise distinct region identities. -/
theorem c6_witness :
    (deviceCycles 0 2 exProtRW 0 exOsAll exEmpty 0 3).1.length = 3 ∧
    List.Pairwise (fun a b => a ≠ b)
      (deviceCycles 0 2 exProtRW 0 exOsAll exEmpty 0 3).1 :=
  c6_device_cycles_distinct 0 2 exProtRW 0 exOsAll exEmpty 3 (by decide)
    (by decide) (fun a => rfl) (by intro r hr j; exact absurd hr (by simp [exEmpty]))

theorem filterMap_invOne_id (s e : Nat) (l : List Region)
    (h : ∀ r ∈ l, ¬(r.in_pgtable = true ∧ r.overlapsI s e = true)) :
    l.filterMap (invOne s e) = l := by
  induction l with
  | nil => rfl
  | cons r l ih =>
    rw [List.filterMap_cons]
    have hr := h r (List.mem_cons_self r l)
    rw [show invOne s e r = some r by
      unfold invOne
      rw [if_neg ?_]
      intro hc
      rw [Bool.and_eq_true] at hc
      exact hr ⟨hc.1, hc.2⟩]
    rw [ih (fun q hq => h q (List.mem_cons_of_mem r hq))]

theorem invalidateRange_id (σ : RState) (s e : Nat)
    (h : overlapList σ s e = []) : invalidateRange σ s e = σ := by
  unfold invalidateRange
  unfold overlapList at h
  rw [List.filter_eq_nil_iff] at h
  have h2 : ∀ r ∈ σ.regions, ¬(r.in_pgtable = true ∧ r.overlapsI s e = true) := by
    intro r hr hc
    have hrp : r ∈ pgtable σ := by
      unfold pgtable
      rw [List.mem_filter]
      exact ⟨hr, by simp [hc.1]⟩
    exact h r hrp (by simp [hc.2])
  rw [filterMap_invOne_id s e σ.regions h2]

/-- C2 (amended): when a slow-path get's register callback fails, the call
returns io-error; the new region is removed and freed: the fresh identity
is not consumed and every surviving record predates the call.  If no
page-table region overlapped the normalized request, the state is exactly
the pre-call state and a subsequent get with a succeeding callback creates
exactly one region (the regions list grows by exactly the returned
record).  Regions that overlapped the request are not restored. -/
theorem c2_register_failure_rollback :
    ∀ (σ : RState) (addr length s e : Nat) (p : Prot) (kind : MemKind)
      (os : Nat → Prot),
      length ≠ 0 →
      s = alignDown addr σ.alignment →
      e = alignUp (addr + length) σ.alignment →
      fastLookup σ s e p kind = none →
      ∃ σ1, ucs_rcache_get σ addr length p kind os false =
          (.err .UCS_ERR_IO_ERROR, σ1) ∧
        σ1.nextId = σ.nextId ∧
        (∀ q ∈ σ1.regions, ∃ r ∈ σ.regions, q.rid = r.rid) ∧
        (overlapList σ s e = [] → σ1 = σ) ∧
        (overlapList σ s e = [] →
          ∀ ns ne np, reconcile σ s e p kind os = some (ns, ne, np) →
          ucs_rcache_get σ1 addr length p kind os true =
            (.ok ⟨σ.nextId, ns, ne, np, kind, 1, true, false⟩ false,
             { alignment := σ.alignment
               regions := (⟨σ.nextId, ns, ne, np, kind, 1, true, false⟩ : Region)
                 :: σ.regions
               nextId := σ.nextId + 1 })) := by
  intro σ addr length s e p kind os hlen hs he hnone
  subst hs
  subst he
  have hid : ∀ (h : overlapList σ (alignDown addr σ.alignment)
      (alignUp (addr + length) σ.alignment) = []),
      invalidateRange σ (alignDown addr σ.alignment)
        (alignUp (addr + length) σ.alignment) = σ :=
    fun h => invalidateRange_id σ _ _ h
  refine ⟨invalidateRange σ (alignDown addr σ.alignment)
    (alignUp (addr + length) σ.alignment), ?_, rfl, ?_, hid, ?_⟩
  · unfold ucs_rcache_get
    rw [if_neg hlen, hnone]
    unfold slowPath
    cases hrec : reconcile σ (alignDown addr σ.alignment)
        (alignUp (addr + length) σ.alignment) p kind os with
    | none => rfl
    | some t =>
      obtain ⟨ns, ne, np⟩ := t
      rfl
  · intro q hq
    obtain ⟨r, hrm, hf⟩ := List.mem_filterMap.mp hq
    exact ⟨r, hrm, (invOne_some_fields _ _ r q hf).1⟩
  · intro hov ns ne np hrec
    rw [hid hov]
    unfold ucs_rcache_get
    rw [if_neg hlen, hnone]
    unfold slowPath
    rw [hrec]
    rw [hid hov]
    rfl

/-- Witness for C2 at a concrete input: a failing register on the empty
cache rolls back exactly, and the retry creates one region. -/
theorem c2_witness :
    ∃ σ1, ucs_rcache_get exEmpty 0 1 exProtRW .host exOsAll false =
        (.err .UCS_ERR_IO_ERROR, σ1) ∧
      σ1.nextId = exEmpty.nextId ∧
      (∀ q ∈ σ1.regions, ∃ r ∈ exEmpty.regions, q.rid = r.rid) ∧
      (overlapList exEmpty 0 1 = [] → σ1 = exEmpty) ∧
      (overlapList exEmpty 0 1 = [] →
        ∀ ns ne np, reconcile exEmpty 0 1 exProtRW .host exOsAll =
          some (ns, ne, np) →
        ucs_rcache_get σ1 0 1 exProtRW .host exOsAll true =
          (.ok ⟨exEmpty.nextId, ns, ne, np, .host, 1, true, false⟩ false,
           { alignment := exEmpty.alignment
             regions := (⟨exEmpty.nextId, ns, ne, np, .host, 1, true,
               false⟩ : Region) :: exEmpty.regions
             nextId := exEmpty.nextId + 1 })) :=
  c2_register_failure_rollback exEmpty 0 1 0 1 exProtRW .host exOsAll
    (by decide) (by decide) (by decide) (by decide)

/-- C2 counterexample: with an overlapping idle region resident, a get
whose register callback fails returns io-error but does not restore the
pre-call state: the overlapped region has been invalidated and freed. -/
theorem c2_counterexample :
    (ucs_rcache_get exOneIdle 2 4 exProtRW .host exOsAll false).1 =
      .err .UCS_ERR_IO_ERROR ∧
    (ucs_rcache_get exOneIdle 2 4 exProtRW .host exOsAll false).2 ≠
      exOneIdle := by
  decide

/-- C3 (amended): every operation preserves well-formedness, in particular
pairwise disjointness of the page-table intervals; and for any two
distinct simultaneously alive regions whose intervals overlap, at most one
carries IN_PGTABLE and any one not in the page table is INVALID. -/
theorem c3_overlap_at_most_one_pgtable :
    (∀ (σ : RState) (op : ROp), WF σ → WF (execOp σ op)) ∧
    (∀ σ : RState, WF σ → ∀ r1 ∈ σ.regions, ∀ r2 ∈ σ.regions,
      r1 ≠ r2 → ¬ r1.disjointWith r2 →
      ¬(r1.in_pgtable = true ∧ r2.in_pgtable = true) ∧
      (r1.in_pgtable = false → r1.invalid = true) ∧
      (r2.in_pgtable = false → r2.invalid = true)) := by
  constructor
  · exact fun σ op hwf => WF_execOp σ op hwf
  · intro σ hwf r1 h1 r2 h2 hne hov
    obtain ⟨-, hpair, hfl, -, -, -, -⟩ := hwf
    refine ⟨?_, ?_, ?_⟩
    · intro ⟨hp1, hp2⟩
      have hm1 : r1 ∈ pgtable σ := by
        unfold pgtable
        rw [List.mem_filter]
        exact ⟨h1, by simp [hp1]⟩
      have hm2 : r2 ∈ pgtable σ := by
        unfold pgtable
        rw [List.mem_filter]
        exact ⟨h2, by simp [hp2]⟩
      exact hov (hpair.forall disjointWith_symm hm1 hm2 hne)
    · intro hp
      have := hfl r1 h1
      rw [hp] at this
      simpa using this
    · intro hp
      have := hfl r2 h2
      rw [hp] at this
      simpa using this

/-- Witness for C3 at concrete inputs: an event step preserves WF of
c3PreState, and its two overlapping alive regions include at most one
IN_PGTABLE entry. -/
theorem c3_witness :
    WF (execOp c3PreState (.event 0 2)) ∧
    ¬((⟨1, 0, 2, ⟨true, true, false⟩, .host, 1, true, false⟩ : Region).in_pgtable
        = true ∧
      (⟨0, 0, 2, ⟨true, true, false⟩, .host, 1, false, true⟩ : Region).in_pgtable
        = true) :=
  ⟨c3_overlap_at_most_one_pgtable.1 c3PreState (.event 0 2) (by decide),
   (c3_overlap_at_most_one_pgtable.2 c3PreState (by decide)
      ⟨1, 0, 2, ⟨true, true, false⟩, .host, 1, true, false⟩ (by decide)
      ⟨0, 0, 2, ⟨true, true, false⟩, .host, 1, false, true⟩ (by decide)
      (by decide) (by decide)).1⟩

/-- C3 counterexample: the invariant as claimed (exactly one of any two
overlapping alive regions is IN_PGTABLE) holds of c3PreState but is
destroyed by processing an unmap event over [0, 2): in the resulting
state both alive overlapping regions are INVALID and neither is in the
page table. -/
theorem c3_counterexample :
    WF c3PreState ∧
    (∀ r1 ∈ c3PreState.regions, ∀ r2 ∈ c3PreState.regions,
      r1 ≠ r2 → ¬ r1.disjointWith r2 →
      ((r1.in_pgtable = true ∧ r2.in_pgtable = false) ∨
       (r1.in_pgtable = false ∧ r2.in_pgtable = true))) ∧
    execOp c3PreState (.event 0 2) = c3PostState ∧
    ¬(∀ r1 ∈ c3PostState.regions, ∀ r2 ∈ c3PostState.regions,
      r1 ≠ r2 → ¬ r1.disjointWith r2 →
      ((r1.in_pgtable = true ∧ r2.in_pgtable = false) ∨
       (r1.in_pgtable = false ∧ r2.in_pgtable = true))) := by
  decide
